import Mathlib

/-!
# GD32VF103 templates: serial command pipeline

A shallow embedding of the C sources `uart_fibonacci/main.c` and
`led_toggle/main.c`: the polling transceiver (`uart_send`, `uart_receive`),
the line assembler (`uart_getline`), the integer codec (`strtoi`, `itoa`),
the Fibonacci routine (`fib`), one cycle of the compute loop of `main` and one
cycle of the toggle loop of `main` with the LED flags and output registers.

Conventions.
* A `char` is a natural number below 256, an `int` is an `Int` kept in the
  signed 32-bit range by `wrap32`, a `long long` is an `Int` kept in the signed
  64-bit range by `wrap64`, an `unsigned int` is a natural number below `2^32`.
* A `char` array is a `Buffer`: a map from indices to cells, which also has
  cells behind the declared end of the array, together with a record of the
  indices that were written and read.
* A `const char *` argument is the list of the bytes found at the pointer; the
  byte read behind the end of the list is the NUL byte.
* The UART is the list of the future readings of its status register, each
  paired with the value the data register holds at that moment, and the list
  of the bytes written to the data register so far.
* A loop is a recursive function with a fuel argument that tests the guard of
  the source loop; it yields `none` when the fuel runs out with the guard still
  true, and when it waits for a byte that the hardware never delivers.
-/

namespace GD32

/-! ## Machine integers -/

/-- Two's-complement value of a 32-bit `int` holding the mathematical result `x`. -/
def wrap32 (x : Int) : Int := (x + 2147483648) % 4294967296 - 2147483648

/-- Two's-complement value of a 64-bit `long long` holding the mathematical result `x`. -/
def wrap64 (x : Int) : Int :=
  (x + 9223372036854775808) % 18446744073709551616 - 9223372036854775808

/-- Conversion of an `int` to `unsigned int`: the value modulo `2^32`. -/
def toU32 (x : Int) : Nat := (x % 4294967296).toNat

/-- The `#define MAX_LINE_SIZE 255`. -/
def MAX_LINE_SIZE : Nat := 255

/-- The `#define check_bit(value, n) (value & (1U << (n)))`. -/
def check_bit (value n : Nat) : Nat := value &&& (1 <<< n)

/-! ## Character buffers -/

/-- A `char` array seen from its first cell, with the indices written and read
so far (most recent first). The cells at `MAX_LINE_SIZE` and behind lie
outside a `char [MAX_LINE_SIZE]` array. -/
structure Buffer where
  cell : Nat → Nat
  writes : List Nat
  reads : List Nat

namespace Buffer

/-- A zero-filled array, as left by the `memset` of `.bss` in `main`. -/
def zeroed : Buffer := { cell := fun _ => 0, writes := [], reads := [] }

/-- The assignment `buf[i] = v` of a value converted to `char`. -/
def store (b : Buffer) (i v : Nat) : Buffer :=
  { cell := fun j => if j = i then v % 256 else b.cell j
    writes := i :: b.writes
    reads := b.reads }

/-- The compound assignment `buf[t] ^= buf[j]`. -/
def xorAssign (b : Buffer) (t j : Nat) : Buffer :=
  { cell := fun k => if k = t then (b.cell t ^^^ b.cell j) % 256 else b.cell k
    writes := t :: b.writes
    reads := j :: t :: b.reads }

/-- The first `n` cells, as the bytes a pointer to the array gives access to. -/
def view (b : Buffer) (n : Nat) : List Nat := (List.range n).map b.cell

end Buffer

/-- The bytes of a C string: those before the first NUL. -/
def cstr (s : List Nat) : List Nat := s.takeWhile (fun c => c ≠ 0)

/-! ## UART -/

/-- One reading of the status register `STAT`, with the content of the data
register `DATA` at that moment. -/
structure Poll where
  stat : Nat
  data : Nat

/-- The UART: the readings still to come and the bytes written to `DATA`. -/
structure Uart where
  polls : List Poll
  sent : List Nat

/-- The character `*p` a pointer holds: NUL behind the end of the bytes. -/
def deref (p : List Nat) : Nat := p.headD 0

/-- The loop of `uart_send`: while `*current_char` is not NUL, read `STAT`; when
bit 7 (TBE) is set, write the character to `DATA` and advance the pointer. No
reading left while a character waits: the loop never ends. -/
def uart_send_loop : List Poll → List Nat → List Nat → Option Uart
  | [], current_char, sent =>
    if deref current_char ≠ 0 then none else some { polls := [], sent := sent }
  | p :: ps, current_char, sent =>
    if deref current_char ≠ 0 then
      if check_bit p.stat 7 ≠ 0 then
        uart_send_loop ps current_char.tail (sent ++ [deref current_char])
      else
        uart_send_loop ps current_char sent
    else some { polls := p :: ps, sent := sent }

/-- The function `uart_send`. -/
def uart_send (msg : List Nat) (u : Uart) : Option Uart :=
  uart_send_loop u.polls msg u.sent

/-- The function `uart_receive`: read `STAT` until bit 5 (RBNE) is set, then
return the content of `DATA` converted to `char`. -/
def uart_receive : List Poll → Option (Nat × List Poll)
  | [] => none
  | p :: ps =>
    if check_bit p.stat 5 ≠ 0 then some (p.data % 256, ps) else uart_receive ps

/-- The loop of `uart_getline`, with the write offset `i`. -/
def uart_getline_loop : Nat → Uart → Buffer → Nat → Option (Buffer × Uart)
  | 0, _, _, _ => none
  | fuel + 1, u, getline_buffer, i =>
    match uart_receive u.polls with
    | none => none
    | some (input, ps) =>
      let b := getline_buffer.store i input
      if input = 0xA then
        some (b.store (i + 1) 0, { polls := ps, sent := u.sent })
      else if i ≥ MAX_LINE_SIZE then
        some (b.store (MAX_LINE_SIZE - 1) 0, { polls := ps, sent := u.sent })
      else
        uart_getline_loop fuel { polls := ps, sent := u.sent } b (i + 1)

/-- The function `uart_getline`. The offset starts at 0 and the loop returns at
the latest with offset `MAX_LINE_SIZE`, so `MAX_LINE_SIZE + 1` rounds of fuel
are never used up. -/
def uart_getline (u : Uart) (getline_buffer : Buffer) : Option (Buffer × Uart) :=
  uart_getline_loop (MAX_LINE_SIZE + 1) u getline_buffer 0

/-! ## Fibonacci -/

/-- The loop `for (int i = 0; i < n; i++) { a = b+c; b = c; c = a; }` of `fib`;
the result is the final `a` with the final `i`, the number of rounds made. -/
def fib_loop (n : Int) : Nat → Int → Int → Int → Int → Option (Int × Int)
  | 0, i, a, _, _ => if i < n then none else some (a, i)
  | fuel + 1, i, a, b, c =>
    if i < n then
      let a1 := wrap32 (b + c)
      fib_loop n fuel (wrap32 (i + 1)) a1 c a1
    else some (a, i)

/-- The function `fib`, with the number of rounds of its loop. -/
def fib_run (n : Int) : Option (Int × Int) := fib_loop n n.toNat 0 0 1 0

/-- The function `fib`. -/
def fib (n : Int) : Option Int := (fib_run n).map Prod.fst

/-! ## Integer codec -/

/-- The loop of `strtoi` and the statements after it; `sign` is the first
character of the text, `p` the scanning pointer, `sum` the negated running
total. The `goto error` path returns 0. -/
def strtoi_loop (sign : Nat) : List Nat → Int → Int
  | [], sum => wrap32 (if sign ≠ 45 then wrap64 (-sum) else sum)
  | ch :: p, sum =>
    if 48 ≤ ch ∧ ch ≤ 57 then
      let sum1 := wrap64 (wrap64 (sum * 10) - ((ch : Int) - 48))
      if sum1 < -2147483647 - 1 ∨ (sign ≠ 45 ∧ wrap64 (-sum1) > 2147483647) then 0
      else strtoi_loop sign p sum1
    else wrap32 (if sign ≠ 45 then wrap64 (-sum) else sum)

/-- The function `strtoi`. -/
def strtoi (s : List Nat) : Int :=
  let sign := deref s
  let p := if sign = 45 ∨ sign = 43 then s.tail else s
  strtoi_loop sign p 0

/-- The digit loop of `itoa`: `while (n1 != 0) { itoa_buffer[i++] = n1 % 10 + 48; n1 = n1 / 10; }`. -/
def itoa_digits : Nat → Nat → Buffer → Nat → Option (Buffer × Nat)
  | 0, n1, itoa_buffer, i => if n1 ≠ 0 then none else some (itoa_buffer, i)
  | fuel + 1, n1, itoa_buffer, i =>
    if n1 ≠ 0 then
      itoa_digits fuel (n1 / 10) (itoa_buffer.store i (n1 % 10 + 48)) (i + 1)
    else some (itoa_buffer, i)

/-- The reversal loop of `itoa`: for `t` below `i / 2`, swap the cells `t` and
`i - t - 1` with three XOR assignments. -/
def itoa_reverse (i : Nat) : Nat → Nat → Buffer → Option Buffer
  | 0, t, itoa_buffer => if t < i / 2 then none else some itoa_buffer
  | fuel + 1, t, itoa_buffer =>
    if t < i / 2 then
      let b1 := itoa_buffer.xorAssign t (i - t - 1)
      let b2 := b1.xorAssign (i - t - 1) t
      let b3 := b2.xorAssign t (i - t - 1)
      itoa_reverse i fuel (t + 1) b3
    else some itoa_buffer

/-- The function `itoa`. An `unsigned int` has at most 10 decimal digits, and
the reversal makes `i / 2` rounds. -/
def itoa (n : Int) (itoa_buffer : Buffer) : Option Buffer :=
  let isNeg : Bool := decide (n < 0)
  let n1 : Nat := toU32 (if isNeg then wrap32 (-n) else n)
  match itoa_digits 10 n1 itoa_buffer 0 with
  | none => none
  | some (b1, i1) =>
    let (b2, i2) := if isNeg then (b1.store i1 45, i1 + 1) else (b1, i1)
    let b3 := b2.store i2 0
    match itoa_reverse i2 (i2 / 2) 0 b3 with
    | none => none
    | some b4 => if n = 0 then some ((b4.store 0 48).store 1 0) else some b4

/-! ## The compute loop of `main` -/

/-- The state of the Fibonacci program between two cycles of its loop. -/
structure Machine where
  uart : Uart
  getline_buffer : Buffer
  itoa_buffer : Buffer

/-- The text `strtoi(getline_buffer)` scans: the `MAX_LINE_SIZE` cells of the
array and the two cells behind it that `uart_getline` can write. -/
def getline_text (getline_buffer : Buffer) : List Nat :=
  getline_buffer.view (MAX_LINE_SIZE + 2)

/-- One cycle of the `while (1)` loop of `main` in `uart_fibonacci/main.c`. -/
def fibonacci_cycle (m : Machine) : Option Machine := do
  let (g, u1) ← uart_getline m.uart m.getline_buffer
  let num := strtoi (getline_text g)
  let result ← fib num
  let u2 ← uart_send [70, 40, 0] u1
  let i1 ← itoa num m.itoa_buffer
  let u3 ← uart_send (i1.view MAX_LINE_SIZE) u2
  let u4 ← uart_send [41, 32, 61, 32, 0] u3
  let i2 ← itoa result i1
  let u5 ← uart_send (i2.view MAX_LINE_SIZE) u4
  let u6 ← uart_send [10, 0] u5
  some { uart := u6, getline_buffer := g, itoa_buffer := i2 }

/-! ## Specification-side definitions -/

/-- The Fibonacci numbers: F(0) = 0, F(1) = 1, F(k+2) = F(k+1) + F(k). -/
def F : Nat → Nat
  | 0 => 0
  | 1 => 1
  | k + 2 => F (k + 1) + F k

/-- The decimal value of a run of digit characters, most significant first. -/
def decimalValue (ds : List Nat) : Nat := ds.foldl (fun m d => 10 * m + (d - 48)) 0

/-- The signed value of a digit run behind the optional sign `sgn` (the empty
text, "+" or "-"): negated behind "-". -/
def signedValue (sgn ds : List Nat) : Int :=
  if sgn = [45] then -((decimalValue ds : Nat) : Int) else ((decimalValue ds : Nat) : Int)

/-- The canonical decimal text of an integer: "0" for 0, otherwise the decimal
digits of the magnitude, most significant first and without a leading zero,
behind a "-" when the integer is negative. -/
def decimalText (n : Int) : List Nat :=
  if n = 0 then [48]
  else (if n < 0 then [45] else []) ++ ((Nat.digits 10 n.natAbs).reverse.map (fun d => d + 48))

/-- The decimal value of a digit run read behind the value `a`. -/
def valueFrom (a : Nat) (ds : List Nat) : Nat := ds.foldl (fun m d => 10 * m + (d - 48)) a

/-- The largest magnitude `strtoi` accepts behind the first character `sign`. -/
def magnitudeBound (sign : Nat) : Nat := if sign = 45 then 2147483648 else 2147483647

/-- The text `sgn ++ ds ++ rest` has `sgn` as its optional leading sign: `sgn`
is empty, "+" or "-", and when it is empty the text does not start with a sign
character. -/
def IsSignOf (sgn ds rest : List Nat) : Prop :=
  (sgn = [] ∧ deref (ds ++ rest) ≠ 43 ∧ deref (ds ++ rest) ≠ 45) ∨ sgn = [43] ∨ sgn = [45]

instance (sgn ds rest : List Nat) : Decidable (IsSignOf sgn ds rest) := by
  unfold IsSignOf; infer_instance

/-- The number of readings of `STAT` that have bit 7 (TBE) set. -/
def txReady (polls : List Poll) : Nat :=
  (polls.filter (fun p => check_bit p.stat 7 ≠ 0)).length

/-- The readings left behind the `n`-th one that has bit 7 (TBE) set. -/
def afterReady : Nat → List Poll → List Poll
  | 0, polls => polls
  | _ + 1, [] => []
  | n + 1, p :: ps => if check_bit p.stat 7 ≠ 0 then afterReady n ps else afterReady (n + 1) ps

/-- Writing the bytes `text` to `DATA`, each at the next reading of `STAT` that
has bit 7 (TBE) set; nothing when such readings are too few. -/
def sendText (text : List Nat) (u : Uart) : Option Uart :=
  if text.length ≤ txReady u.polls then
    some { polls := afterReady text.length u.polls, sent := u.sent ++ text }
  else none

/-- The input byte stream of the UART: the bytes found in `DATA` at the
readings of `STAT` that have bit 5 (RBNE) set, in order. -/
def received (polls : List Poll) : List Nat :=
  (polls.filter (fun p => check_bit p.stat 5 ≠ 0)).map (fun p => p.data % 256)

/-- The loop of `strtoi` under observation: next to the value returned, for
every round of the loop the value of `sum` at its start and the mathematical
value of `sum * 10 - (*p - 48)`, before it is stored into the `long long`. -/
def strtoi_loop_observed (sign : Nat) : List Nat → Int → Int × List (Int × Int)
  | [], sum => (wrap32 (if sign ≠ 45 then wrap64 (-sum) else sum), [])
  | ch :: p, sum =>
    if 48 ≤ ch ∧ ch ≤ 57 then
      let sum1 := wrap64 (wrap64 (sum * 10) - ((ch : Int) - 48))
      if sum1 < -2147483647 - 1 ∨ (sign ≠ 45 ∧ wrap64 (-sum1) > 2147483647) then
        (0, [(sum, sum * 10 - ((ch : Int) - 48))])
      else
        ((strtoi_loop_observed sign p sum1).1,
          (sum, sum * 10 - ((ch : Int) - 48)) :: (strtoi_loop_observed sign p sum1).2)
    else (wrap32 (if sign ≠ 45 then wrap64 (-sum) else sum), [])

/-- The function `strtoi` under observation. -/
def strtoi_observed (s : List Nat) : Int × List (Int × Int) :=
  let sign := deref s
  let p := if sign = 45 ∨ sign = 43 then s.tail else s
  strtoi_loop_observed sign p 0

/-! ## The toggle loop of `main` in `led_toggle/main.c` -/

/-- The GPIO ports whose output data register `ODR` drives the three LEDs. -/
inductive GpioPort where
  | A
  | C
  deriving DecidableEq

/-- The complement `~x` of a 32-bit value. -/
def not32 (x : Nat) : Nat := 4294967295 ^^^ x

/-- The negation `!x` of C: 1 for 0, and 0 for every other value. -/
def lnot (x : Int) : Int := if x ≠ 0 then 0 else 1

/-- The state of the LED program: the UART, the line buffer, the three `short`
flags of `main`, the registers `GPIOA->ODR` and `GPIOC->ODR` (a read gives the
value last written), and the writes made to them (most recent first). -/
structure LedMachine where
  uart : Uart
  getline_buffer : Buffer
  red : Int
  green : Int
  blue : Int
  gpioa_odr : Nat
  gpioc_odr : Nat
  odr_writes : List (GpioPort × Nat)

/-- The banner of `main`, with its NUL. -/
def led_message : List Nat :=
  [76, 69, 68, 32, 84, 79, 71, 71, 76, 69, 10, 73, 110, 112, 117, 116, 32, 111, 110, 101, 32,
   111, 102, 32, 116, 104, 101, 32, 102, 111, 108, 108, 111, 119, 105, 110, 103, 32, 110, 117,
   109, 98, 101, 114, 115, 58, 10, 49, 32, 61, 32, 84, 111, 103, 103, 108, 101, 32, 82, 69, 68,
   32, 108, 101, 100, 10, 50, 32, 61, 32, 84, 111, 103, 103, 108, 101, 32, 71, 82, 69, 69, 78,
   32, 108, 101, 100, 10, 51, 32, 61, 32, 84, 111, 103, 103, 108, 101, 32, 66, 76, 85, 69, 32,
   108, 101, 100, 10, 10, 0]

/-- The string "Toggling RED...\n", with its NUL. -/
def toggling_red : List Nat :=
  [84, 111, 103, 103, 108, 105, 110, 103, 32, 82, 69, 68, 46, 46, 46, 10, 0]

/-- The string "Toggling GREEN...\n", with its NUL. -/
def toggling_green : List Nat :=
  [84, 111, 103, 103, 108, 105, 110, 103, 32, 71, 82, 69, 69, 78, 46, 46, 46, 10, 0]

/-- The string "Toggling BLUE...\n", with its NUL. -/
def toggling_blue : List Nat :=
  [84, 111, 103, 103, 108, 105, 110, 103, 32, 66, 76, 85, 69, 46, 46, 46, 10, 0]

/-- The string "Wrong input.\n", with its NUL. -/
def wrong_input : List Nat :=
  [87, 114, 111, 110, 103, 32, 105, 110, 112, 117, 116, 46, 10, 0]

/-- The writes of `led_initialize` to the output data registers:
`GPIOA->ODR |= (0x1 << 1 | 0x1 << 2); GPIOC->ODR |= (0x1 << 13);`. The clock
enable and pin mode registers it sets first are not part of the state. -/
def led_initialize (m : LedMachine) : LedMachine :=
  let a := m.gpioa_odr ||| (1 <<< 1 ||| 1 <<< 2)
  let c := m.gpioc_odr ||| (1 <<< 13)
  { m with
    gpioa_odr := a
    gpioc_odr := c
    odr_writes := (GpioPort.C, c) :: (GpioPort.A, a) :: m.odr_writes }

/-- The part of `main` before its loop: `led_initialize`, the banner, and the
three flags set to 0. -/
def led_main_start (m : LedMachine) : Option LedMachine :=
  match uart_send led_message ( led_initialize m).uart with
  | none => none
  | some u => some { led_initialize m with uart := u, red := 0, green := 0, blue := 0 }

/-- One cycle of the `while (1)` loop of `main` in `led_toggle/main.c`. -/
def led_cycle (m : LedMachine) : Option LedMachine :=
  match uart_getline m.uart m.getline_buffer with
  | none => none
  | some (g, u1) =>
    if g.cell 0 = 49 then
      match uart_send toggling_red u1 with
      | none => none
      | some u2 =>
        let odr :=
          if m.red ≠ 0 then m.gpioc_odr ||| (1 <<< 13) else m.gpioc_odr &&& not32 (1 <<< 13)
        some { m with
          uart := u2
          getline_buffer := g
          gpioc_odr := odr
          odr_writes := (GpioPort.C, odr) :: m.odr_writes
          red := lnot m.red }
    else if g.cell 0 = 50 then
      match uart_send toggling_green u1 with
      | none => none
      | some u2 =>
        let odr :=
          if m.green ≠ 0 then m.gpioa_odr ||| (1 <<< 1) else m.gpioa_odr &&& not32 (1 <<< 1)
        some { m with
          uart := u2
          getline_buffer := g
          gpioa_odr := odr
          odr_writes := (GpioPort.A, odr) :: m.odr_writes
          green := lnot m.green }
    else if g.cell 0 = 51 then
      match uart_send toggling_blue u1 with
      | none => none
      | some u2 =>
        let odr :=
          if m.blue ≠ 0 then m.gpioa_odr ||| (1 <<< 2) else m.gpioa_odr &&& not32 (1 <<< 2)
        some { m with
          uart := u2
          getline_buffer := g
          gpioa_odr := odr
          odr_writes := (GpioPort.A, odr) :: m.odr_writes
          blue := lnot m.blue }
    else
      match uart_send wrong_input u1 with
      | none => none
      | some u2 => some { m with uart := u2, getline_buffer := g }

/-- A number of cycles of the toggle loop, one after the other. -/
def led_run : Nat → LedMachine → Option LedMachine
  | 0, m => some m
  | n + 1, m =>
    match led_cycle m with
    | none => none
    | some m1 => led_run n m1

/-- The state `led_initialize` and `main` establish before the loop: the three
flags 0, bit 13 of `GPIOC->ODR` and bits 1 and 2 of `GPIOA->ODR` set. -/
def LedStart (m : LedMachine) : Prop :=
  m.red = 0 ∧ m.green = 0 ∧ m.blue = 0 ∧ m.gpioc_odr.testBit 13 = true ∧
    m.gpioa_odr.testBit 1 = true ∧ m.gpioa_odr.testBit 2 = true

instance (m : LedMachine) : Decidable (LedStart m) := by
  unfold LedStart; infer_instance

/-- Active-low LEDs: every flag is 0 or 1 and every output bit is the
complement of its flag. -/
def LedActiveLow (m : LedMachine) : Prop :=
  (m.red = 0 ∨ m.red = 1) ∧ (m.green = 0 ∨ m.green = 1) ∧ (m.blue = 0 ∨ m.blue = 1) ∧
    m.gpioc_odr.testBit 13 = decide (m.red = 0) ∧
    m.gpioa_odr.testBit 1 = decide (m.green = 0) ∧
    m.gpioa_odr.testBit 2 = decide (m.blue = 0)

instance (m : LedMachine) : Decidable (LedActiveLow m) := by
  unfold LedActiveLow; infer_instance

end GD32

namespace GD32

/-! ## Machine integers: lemmas -/

theorem wrap32_of_range (x : Int) (h1 : -2147483648 ≤ x) (h2 : x ≤ 2147483647) :
    wrap32 x = x := by
  unfold wrap32; omega

theorem wrap32_range (x : Int) : -2147483648 ≤ wrap32 x ∧ wrap32 x ≤ 2147483647 := by
  unfold wrap32; omega

theorem wrap32_add_wrap32 (x y : Int) : wrap32 (wrap32 x + wrap32 y) = wrap32 (x + y) := by
  unfold wrap32; omega

theorem wrap64_of_range (x : Int) (h1 : -9223372036854775808 ≤ x)
    (h2 : x ≤ 9223372036854775807) : wrap64 x = x := by
  unfold wrap64; omega

/-! ## Fibonacci: lemmas -/

theorem F_eq_natFib : ∀ k, F k = Nat.fib k ∧ F (k + 1) = Nat.fib (k + 1)
  | 0 => by simp [F]
  | k + 1 => by
    have h := F_eq_natFib k
    refine ⟨h.2, ?_⟩
    rw [F, h.1, h.2, Nat.fib_add_two, Nat.add_comm]

theorem F_le_of_le_46 (k : Nat) (h : k ≤ 46) : F k ≤ 1836311903 := by
  rw [(F_eq_natFib k).1]
  calc Nat.fib k ≤ Nat.fib 46 := Nat.fib_mono h
    _ = 1836311903 := by norm_num [Nat.fib_add_two]

/-- From round `k + 1` on, the loop of `fib` holds `F (k + 1)`, `F k`,
`F (k + 1)` (as 32-bit values) in `a`, `b`, `c`, and it ends with `F n` in `a`
after `n` rounds. -/
theorem fib_loop_spec (n : Int) (hn : n ≤ 2147483647) :
    ∀ (fuel k : Nat), (k : Int) + 1 + fuel = n →
      fib_loop n fuel ((k : Int) + 1) (wrap32 (F (k + 1))) (wrap32 (F k)) (wrap32 (F (k + 1)))
        = some (wrap32 (F n.toNat), n) := by
  intro fuel
  induction fuel with
  | zero =>
    intro k hk
    have h1 : ¬ ((k : Int) + 1 < n) := by omega
    have h2 : n.toNat = k + 1 := by omega
    have h3 : n = (k : Int) + 1 := by omega
    subst h3
    simp only [fib_loop, h1, if_false, h2]
  | succ fuel ih =>
    intro k hk
    have h1 : (k : Int) + 1 < n := by omega
    have h2 : wrap32 ((k : Int) + 1 + 1) = ((k + 1 : Nat) : Int) + 1 := by
      rw [wrap32_of_range] <;> push_cast <;> omega
    have h3 : wrap32 (wrap32 (F k) + wrap32 (F (k + 1))) = wrap32 (F (k + 1 + 1)) := by
      have hF : ((F (k + 1 + 1) : Nat) : Int) = (F k : Int) + (F (k + 1) : Int) := by
        rw [F.eq_3 k]; push_cast; ring
      rw [wrap32_add_wrap32, hF]
    simp only [fib_loop, h1, if_true, h2, h3]
    exact ih (k + 1) (by push_cast; omega)

/-- For a count `n` in the `int` range, `fib` makes `n` rounds and returns
`F n` wrapped to 32 bits. -/
theorem fib_run_of_nonneg (n : Int) (h0 : 0 ≤ n) (hn : n ≤ 2147483647) :
    fib_run n = some (wrap32 (F n.toNat), n) := by
  obtain ⟨m, rfl⟩ := Int.eq_ofNat_of_zero_le h0
  cases m with
  | zero => simp [fib_run, fib_loop, F, wrap32]
  | succ m =>
    have h1 : (0 : Int) < ((m + 1 : Nat) : Int) := by push_cast; omega
    have h2 : ((m + 1 : Nat) : Int).toNat = m + 1 := by simp
    have h := fib_loop_spec ((m + 1 : Nat) : Int) hn m 0 (by push_cast; omega)
    simp only [fib_run, h2, fib_loop, h1, if_true]
    have e1 : wrap32 ((0 : Int) + 1) = ((0 : Nat) : Int) + 1 := by decide
    have e2 : wrap32 ((1 : Int) + 0) = wrap32 (F (0 + 1)) := by decide
    have e3 : (0 : Int) = wrap32 (F 0) := by decide
    rw [e1, e2]
    rw [e3]
    simpa using h

/-! ## Fibonacci: claims -/

/-- C8: for every n with 0 <= n <= 46, `fib n` returns the Fibonacci number
F(n) of the recurrence F(0) = 0, F(1) = 1, F(k+2) = F(k+1) + F(k); in
particular fib(0) = 0, fib(1) = 1, fib(5) = 5 and fib(10) = 55. -/
theorem fib_eq_F (n : Int) (h0 : 0 ≤ n) (h46 : n ≤ 46) :
    fib n = some ((F n.toNat : Nat) : Int) ∧
      (fib 0 = some 0 ∧ fib 1 = some 1 ∧ fib 5 = some 5 ∧ fib 10 = some 55) := by
  refine ⟨?_, by decide, by decide, by decide, by decide⟩
  have hF := F_le_of_le_46 n.toNat (by omega)
  rw [fib, fib_run_of_nonneg n h0 (by omega)]
  simp only [Option.map_some']
  rw [wrap32_of_range] <;> omega

theorem fib_eq_F_witness :
    (0 : Int) ≤ 10 ∧ (10 : Int) ≤ 46 ∧ fib 10 = some 55 ∧ F 10 = 55 :=
  ⟨by decide, by decide, (fib_eq_F 10 (by decide) (by decide)).2.2.2.2, by decide⟩

/-- C9: for every n <= 0, the loop of `fib` makes zero rounds and `fib`
returns 0. -/
theorem fib_of_nonpos (n : Int) (h : n ≤ 0) :
    fib_run n = some (0, 0) ∧ fib n = some 0 := by
  have h1 : n.toNat = 0 := by omega
  have h2 : ¬ ((0 : Int) < n) := by omega
  simp [fib, fib_run, h1, fib_loop, h2]

theorem fib_of_nonpos_witness :
    (-7 : Int) ≤ 0 ∧ fib_run (-7) = some (0, 0) ∧ fib (-7) = some 0 :=
  ⟨by decide, fib_of_nonpos (-7) (by decide)⟩

/-! ## strtoi: lemmas -/

theorem valueFrom_ge (ds : List Nat) : ∀ a, a ≤ valueFrom a ds := by
  induction ds with
  | nil => intro a; exact Nat.le_refl a
  | cons d ds ih =>
    intro a
    have h := ih (10 * a + (d - 48))
    simp only [valueFrom, List.foldl_cons] at h ⊢
    omega

theorem strtoi_loop_stop (sign : Nat) (rest : List Nat) (sum : Int)
    (hr : ¬ (48 ≤ deref rest ∧ deref rest ≤ 57)) :
    strtoi_loop sign rest sum = wrap32 (if sign ≠ 45 then wrap64 (-sum) else sum) := by
  cases rest with
  | nil => simp [strtoi_loop]
  | cons ch p =>
    have h : ¬ (48 ≤ ch ∧ ch ≤ 57) := by simpa [deref] using hr
    simp only [strtoi_loop, h, if_false]

/-- The loop of `strtoi` on a digit run `ds` followed by a non-digit, entered
with the running total `-a`: the value read if its magnitude stays within the
bound, and 0 otherwise. -/
theorem strtoi_loop_spec (sign : Nat) (rest : List Nat)
    (hr : ¬ (48 ≤ deref rest ∧ deref rest ≤ 57)) :
    ∀ (ds : List Nat) (a : Nat), (∀ d ∈ ds, 48 ≤ d ∧ d ≤ 57) → a ≤ magnitudeBound sign →
      strtoi_loop sign (ds ++ rest) (-(a : Int)) =
        if valueFrom a ds ≤ magnitudeBound sign then
          (if sign = 45 then -((valueFrom a ds : Nat) : Int) else ((valueFrom a ds : Nat) : Int))
        else 0 := by
  intro ds
  induction ds with
  | nil =>
    intro a _ ha
    have hb : magnitudeBound sign ≤ 2147483648 := by unfold magnitudeBound; split <;> omega
    rw [List.nil_append, strtoi_loop_stop sign rest _ hr]
    simp only [valueFrom, List.foldl_nil, ha, if_true]
    by_cases hs : sign = 45
    · simp only [hs, ne_eq, not_true_eq_false, if_false, if_true]
      rw [wrap32_of_range] <;> simp only [magnitudeBound, hs, if_true] at ha <;> omega
    · simp only [hs, ne_eq, not_false_eq_true, if_true, if_false]
      simp only [magnitudeBound, hs, if_false] at ha
      rw [wrap64_of_range, wrap32_of_range] <;> omega
  | cons d ds ih =>
    intro a hd ha
    have hdig : 48 ≤ d ∧ d ≤ 57 := hd d (List.mem_cons_self d ds)
    have hds : ∀ e ∈ ds, 48 ≤ e ∧ e ≤ 57 := fun e he => hd e (List.mem_cons_of_mem d he)
    have hb : magnitudeBound sign ≤ 2147483648 := by unfold magnitudeBound; split <;> omega
    have hsum : wrap64 (wrap64 (-(a : Int) * 10) - ((d : Int) - 48))
        = -(((10 * a + (d - 48) : Nat)) : Int) := by
      rw [wrap64_of_range (-(a : Int) * 10) (by omega) (by omega)]
      rw [wrap64_of_range] <;> push_cast <;> omega
    have hval : valueFrom a (d :: ds) = valueFrom (10 * a + (d - 48)) ds := rfl
    rw [List.cons_append]
    simp only [strtoi_loop, hdig, and_self, if_true, hsum, hval]
    by_cases hover : 10 * a + (d - 48) ≤ magnitudeBound sign
    · have hno : ¬ (-(((10 * a + (d - 48) : Nat)) : Int) < -2147483647 - 1 ∨
          (sign ≠ 45 ∧ wrap64 (- -(((10 * a + (d - 48) : Nat)) : Int)) > 2147483647)) := by
        rw [wrap64_of_range _ (by omega) (by omega)]
        unfold magnitudeBound at hover
        by_cases hs : sign = 45
        · simp only [hs, if_true] at hover; simp only [hs]; omega
        · simp only [hs, if_false] at hover; omega
      rw [if_neg hno]
      exact ih (10 * a + (d - 48)) hds hover
    · have hyes : (-(((10 * a + (d - 48) : Nat)) : Int) < -2147483647 - 1 ∨
          (sign ≠ 45 ∧ wrap64 (- -(((10 * a + (d - 48) : Nat)) : Int)) > 2147483647)) := by
        have h10 : 10 * a + (d - 48) ≤ 21474836489 := by omega
        rw [wrap64_of_range _ (by omega) (by omega)]
        unfold magnitudeBound at hover
        by_cases hs : sign = 45
        · simp only [hs, if_true] at hover; left; omega
        · simp only [hs, if_false] at hover; right; exact ⟨hs, by omega⟩
      have hge := valueFrom_ge ds (10 * a + (d - 48))
      rw [if_pos hyes, if_neg (by omega)]

/-- The function `strtoi` on a text made of an optional sign, a digit run and a
remainder that starts with a non-digit: the signed value of the digit run when it
is an `int`, and 0 otherwise. -/
theorem strtoi_spec (sgn ds rest : List Nat) (hs : IsSignOf sgn ds rest)
    (hd : ∀ d ∈ ds, 48 ≤ d ∧ d ≤ 57) (hr : ¬ (48 ≤ deref rest ∧ deref rest ≤ 57)) :
    strtoi (sgn ++ ds ++ rest) =
      if -2147483648 ≤ signedValue sgn ds ∧ signedValue sgn ds ≤ 2147483647 then
        signedValue sgn ds
      else 0 := by
  have hv : valueFrom 0 ds = decimalValue ds := rfl
  rcases hs with ⟨rfl, h43, h45⟩ | rfl | rfl
  · have hp : ¬ (deref (ds ++ rest) = 45 ∨ deref (ds ++ rest) = 43) := by tauto
    have h := strtoi_loop_spec (deref (ds ++ rest)) rest hr ds 0 hd (by simp [magnitudeBound])
    simp only [strtoi, List.nil_append, hp, if_false]
    simp only [Nat.cast_zero, neg_zero, hv, h45, if_false, magnitudeBound] at h
    rw [h]
    simp only [signedValue, List.nil_eq, reduceCtorEq, if_false]
    by_cases hm : decimalValue ds ≤ 2147483647
    · rw [if_pos hm, if_pos (by omega)]
    · rw [if_neg hm, if_neg (by omega)]
  · have h := strtoi_loop_spec 43 rest hr ds 0 hd (by simp [magnitudeBound])
    simp only [Nat.cast_zero, neg_zero, hv, magnitudeBound, Nat.reduceEqDiff, if_false] at h
    have hst : strtoi ([43] ++ ds ++ rest) = strtoi_loop 43 (ds ++ rest) 0 := by
      simp [strtoi, deref]
    rw [hst, h]
    have hsv : signedValue [43] ds = ((decimalValue ds : Nat) : Int) := by simp [signedValue]
    rw [hsv]
    by_cases hm : decimalValue ds ≤ 2147483647
    · rw [if_pos hm, if_pos (by omega)]
    · rw [if_neg hm, if_neg (by omega)]
  · have h := strtoi_loop_spec 45 rest hr ds 0 hd (by simp [magnitudeBound])
    simp only [Nat.cast_zero, neg_zero, hv, magnitudeBound, if_true] at h
    have hst : strtoi ([45] ++ ds ++ rest) = strtoi_loop 45 (ds ++ rest) 0 := by
      simp [strtoi, deref]
    rw [hst, h]
    simp only [signedValue, if_true]
    by_cases hm : decimalValue ds ≤ 2147483648
    · rw [if_pos hm, if_pos (by omega)]
    · rw [if_neg hm, if_neg (by omega)]

theorem isSignOf_of_digits (ds rest : List Nat) (hd : ∀ d ∈ ds, 48 ≤ d ∧ d ≤ 57)
    (h0 : ds = [] → rest = []) :
    IsSignOf [] ds rest := by
  left
  refine ⟨rfl, ?_⟩
  cases ds with
  | nil => simp [h0 rfl, deref]
  | cons d ds =>
    have h := hd d (List.mem_cons_self d ds)
    simp only [List.cons_append, deref, List.headD_cons]
    omega

/-! ## strtoi: claims -/

/-- C5: on a NUL-terminated text made of an optional single leading "+" or "-",
a maximal run of decimal digits and a remainder that starts with a non-digit,
`strtoi` returns the signed value of the digit run whenever it lies in
[-2^31, 2^31 - 1]. The remainder does not affect the result, an empty digit
run gives 0, and "2147483647" and "-2147483648" give INT_MAX and INT_MIN. -/
theorem strtoi_in_range (sgn ds rest : List Nat) (hs : IsSignOf sgn ds rest)
    (hd : ∀ d ∈ ds, 48 ≤ d ∧ d ≤ 57) (hr : ¬ (48 ≤ deref rest ∧ deref rest ≤ 57))
    (hlo : -2147483648 ≤ signedValue sgn ds) (hhi : signedValue sgn ds ≤ 2147483647) :
    strtoi (sgn ++ ds ++ rest) = signedValue sgn ds ∧
      (∀ other : List Nat, IsSignOf sgn ds other → ¬ (48 ≤ deref other ∧ deref other ≤ 57) →
        strtoi (sgn ++ ds ++ other) = strtoi (sgn ++ ds ++ rest)) ∧
      (ds = [] → strtoi (sgn ++ ds ++ rest) = 0) ∧
      strtoi [50, 49, 52, 55, 52, 56, 51, 54, 52, 55] = 2147483647 ∧
      strtoi [45, 50, 49, 52, 55, 52, 56, 51, 54, 52, 56] = -2147483648 := by
  have h := strtoi_spec sgn ds rest hs hd hr
  rw [if_pos ⟨hlo, hhi⟩] at h
  refine ⟨h, ?_, ?_, by decide, by decide⟩
  · intro other ho hro
    rw [h, strtoi_spec sgn ds other ho hd hro, if_pos ⟨hlo, hhi⟩]
  · intro he
    rw [h, he]
    simp [signedValue, decimalValue]

theorem strtoi_in_range_witness :
    strtoi ([45] ++ [55] ++ [10]) = signedValue [45] [55] ∧ signedValue [45] [55] = -7 :=
  ⟨(strtoi_in_range [45] [55] [10] (Or.inr (Or.inr rfl)) (by decide) (by decide)
      (by decide) (by decide)).1, by decide⟩

/-- C6: on a NUL-terminated text whose signed digit-run value (optional "+" or
"-", then the maximal run of decimal digits) lies outside [-2^31, 2^31 - 1],
`strtoi` returns 0, as it does on the text "0"; so on "2147483648" and
"-2147483649". -/
theorem strtoi_out_of_range (sgn ds rest : List Nat)
    (hs : sgn = [] ∨ sgn = [43] ∨ sgn = [45])
    (hd : ∀ d ∈ ds, 48 ≤ d ∧ d ≤ 57) (hr : ¬ (48 ≤ deref rest ∧ deref rest ≤ 57))
    (hout : signedValue sgn ds < -2147483648 ∨ 2147483647 < signedValue sgn ds) :
    strtoi (sgn ++ ds ++ rest) = 0 ∧ strtoi [48] = 0 ∧
      strtoi [50, 49, 52, 55, 52, 56, 51, 54, 52, 56] = 0 ∧
      strtoi [45, 50, 49, 52, 55, 52, 56, 51, 54, 52, 57] = 0 := by
  refine ⟨?_, by decide, by decide, by decide⟩
  have hsign : IsSignOf sgn ds rest := by
    rcases hs with rfl | h | h
    · have hne : ds ≠ [] := by
        rintro rfl
        simp [signedValue, decimalValue] at hout
      exact isSignOf_of_digits ds rest hd (fun he => absurd he hne)
    · exact Or.inr (Or.inl h)
    · exact Or.inr (Or.inr h)
  rw [strtoi_spec sgn ds rest hsign hd hr, if_neg (by omega)]

theorem strtoi_out_of_range_witness :
    strtoi ([45] ++ [50, 49, 52, 55, 52, 56, 51, 54, 52, 57] ++ [10]) = 0 :=
  (strtoi_out_of_range [45] [50, 49, 52, 55, 52, 56, 51, 54, 52, 57] [10]
    (Or.inr (Or.inr rfl)) (by decide) (by decide) (by decide)).1

/-! ## Buffers: lemmas -/

theorem view_length (b : Buffer) (n : Nat) : (b.view n).length = n := by
  simp [Buffer.view]

theorem view_getElem? (b : Buffer) (n j : Nat) (h : j < n) : (b.view n)[j]? = some (b.cell j) := by
  simp [Buffer.view, List.getElem?_map, List.getElem?_range h]

theorem view_succ (b : Buffer) (n : Nat) : b.view (n + 1) = b.view n ++ [b.cell n] := by
  simp [Buffer.view, List.range_succ]

theorem view_congr (b c : Buffer) (n : Nat) (h : ∀ j, j < n → b.cell j = c.cell j) :
    b.view n = c.view n := by
  unfold Buffer.view
  apply List.map_congr_left
  intro j hj
  exact h j (List.mem_range.mp hj)

theorem view_split (b : Buffer) (i : Nat) :
    ∀ n, i < n → ∃ rest, b.view n = b.view i ++ b.cell i :: rest := by
  intro n
  induction n with
  | zero => intro h; omega
  | succ n ih =>
    intro h
    rw [view_succ]
    by_cases hi : i = n
    · subst hi; exact ⟨[], rfl⟩
    · obtain ⟨rest, hrest⟩ := ih (by omega)
      exact ⟨rest ++ [b.cell n], by rw [hrest]; simp⟩

theorem cell_of_view (b : Buffer) (n : Nat) (l : List Nat) (h : b.view n = l) (j : Nat)
    (hj : j < n) : l[j]? = some (b.cell j) := by
  rw [← h]; exact view_getElem? b n j hj

theorem cstr_append_nul (text rest : List Nat) (h : ∀ c ∈ text, c ≠ 0) :
    cstr (text ++ 0 :: rest) = text := by
  induction text with
  | nil => simp [cstr]
  | cons c text ih =>
    have hc : c ≠ 0 := h c (List.mem_cons_self c text)
    have ht : ∀ d ∈ text, d ≠ 0 := fun d hd => h d (List.mem_cons_of_mem c hd)
    have hi := ih ht
    unfold cstr at hi ⊢
    rw [List.cons_append, List.takeWhile_cons, hi]
    simp [hc]

/-- A buffer whose first cells hold `text`, free of NUL bytes, followed by a NUL
cell inside the viewed range, reads as the C string `text`. -/
theorem cstr_view (b : Buffer) (text : List Nat) (n : Nat) (hn : text.length < n)
    (hv : b.view text.length = text) (h0 : b.cell text.length = 0) (hne : ∀ c ∈ text, c ≠ 0) :
    cstr (b.view n) = text := by
  obtain ⟨rest, hrest⟩ := view_split b text.length n hn
  rw [hrest, hv, h0]
  exact cstr_append_nul text rest hne

/-! ## itoa: lemmas -/

/-- The digit loop of `itoa` appends the decimal digits of `n1`, least
significant first, as characters from offset `i` on, and leaves the cells
before `i` as they were. -/
theorem itoa_digits_spec :
    ∀ (fuel n1 : Nat) (b : Buffer) (i : Nat), n1 < 10 ^ fuel →
      ∃ b1, itoa_digits fuel n1 b i = some (b1, i + (Nat.digits 10 n1).length) ∧
        b1.view (i + (Nat.digits 10 n1).length)
          = b.view i ++ (Nat.digits 10 n1).map (fun d => d + 48) ∧
        (Nat.digits 10 n1).length ≤ fuel := by
  intro fuel
  induction fuel with
  | zero =>
    intro n1 b i h
    have h0 : n1 = 0 := by simpa using h
    subst h0
    exact ⟨b, by simp [itoa_digits], by simp, by simp⟩
  | succ fuel ih =>
    intro n1 b i h
    by_cases h0 : n1 = 0
    · subst h0
      exact ⟨b, by simp [itoa_digits], by simp, by simp⟩
    · have hpos : 0 < n1 := Nat.pos_of_ne_zero h0
      have hdig : Nat.digits 10 n1 = n1 % 10 :: Nat.digits 10 (n1 / 10) :=
        Nat.digits_def' (by norm_num) hpos
      have hlt : n1 / 10 < 10 ^ fuel := by
        rw [pow_succ] at h
        exact Nat.div_lt_of_lt_mul (by omega)
      obtain ⟨b1, hrun, hview, hlen⟩ := ih (n1 / 10) (b.store i (n1 % 10 + 48)) (i + 1) hlt
      refine ⟨b1, ?_, ?_, ?_⟩
      · simp only [itoa_digits, h0, ne_eq, not_false_eq_true, if_true, hrun, hdig,
          List.length_cons]
        congr 2; omega
      · have e : i + (Nat.digits 10 n1).length = i + 1 + (Nat.digits 10 (n1 / 10)).length := by
          rw [hdig, List.length_cons]; omega
        rw [e, hview, view_succ]
        have hpre : (b.store i (n1 % 10 + 48)).view i = b.view i := by
          apply view_congr
          intro j hj
          simp only [Buffer.store]
          rw [if_neg (by omega)]
        have hcell : (b.store i (n1 % 10 + 48)).cell i = n1 % 10 + 48 := by
          simp only [Buffer.store, if_true]
          omega
        rw [hpre, hcell, hdig]
        simp
      · rw [hdig, List.length_cons]; omega

/-- The three XOR assignments of the reversal loop exchange two distinct
cells that hold `char` values. -/
theorem xor_swap_cell (b : Buffer) (t u : Nat) (htu : t ≠ u) (ht : b.cell t < 256)
    (hu : b.cell u < 256) (k : Nat) :
    (((b.xorAssign t u).xorAssign u t).xorAssign t u).cell k =
      if k = t then b.cell u else if k = u then b.cell t else b.cell k := by
  have hx : b.cell t ^^^ b.cell u < 256 :=
    Nat.xor_lt_two_pow (n := 8) (by simpa using ht) (by simpa using hu)
  have hut : ¬ (u = t) := fun h => htu h.symm
  have e1 : (b.cell t ^^^ b.cell u) % 256 = b.cell t ^^^ b.cell u := Nat.mod_eq_of_lt hx
  have e2 : b.cell u ^^^ (b.cell t ^^^ b.cell u) = b.cell t := by
    rw [Nat.xor_comm (b.cell t), Nat.xor_cancel_left]
  have e3 : (b.cell t ^^^ b.cell u) ^^^ b.cell t = b.cell u := by
    rw [Nat.xor_comm (b.cell t), Nat.xor_cancel_right]
  have e4 : b.cell t % 256 = b.cell t := Nat.mod_eq_of_lt ht
  have e5 : b.cell u % 256 = b.cell u := Nat.mod_eq_of_lt hu
  simp only [Buffer.xorAssign, if_true, hut, htu, if_false, e1, e2, e3, e4, e5]
  by_cases hk : k = t
  · simp only [hk, if_true]
  · simp only [hk, if_false]

/-- From round `t` on, the reversal loop of `itoa` mirrors the cells
`t .. i - t - 1` and leaves every other cell as it was. -/
theorem itoa_reverse_spec (i : Nat) :
    ∀ (fuel t : Nat) (b : Buffer), t + fuel = i / 2 → (∀ j, j < i → b.cell j < 256) →
      ∃ b4, itoa_reverse i fuel t b = some b4 ∧
        ∀ j, b4.cell j = if t ≤ j ∧ j < i - t then b.cell (i - 1 - j) else b.cell j := by
  intro fuel
  induction fuel with
  | zero =>
    intro t b ht _
    have hg : ¬ (t < i / 2) := by omega
    refine ⟨b, by simp only [itoa_reverse, hg, if_false], ?_⟩
    intro j
    split
    · congr 1; omega
    · rfl
  | succ fuel ih =>
    intro t b ht hb
    have hg : t < i / 2 := by omega
    have htu : t ≠ i - t - 1 := by omega
    have hcell := xor_swap_cell b t (i - t - 1) htu (hb t (by omega)) (hb (i - t - 1) (by omega))
    have hb3 : ∀ j, j < i →
        (((b.xorAssign t (i - t - 1)).xorAssign (i - t - 1) t).xorAssign t (i - t - 1)).cell j
          < 256 := by
      intro j hj
      rw [hcell j]
      split
      · exact hb _ (by omega)
      · split
        · exact hb _ (by omega)
        · exact hb _ hj
    obtain ⟨b4, hrun, hb4⟩ := ih (t + 1) _ (by omega) hb3
    refine ⟨b4, by simp only [itoa_reverse, hg, if_true, hrun], ?_⟩
    intro j
    rw [hb4 j]
    by_cases hin : t + 1 ≤ j ∧ j < i - (t + 1)
    · rw [if_pos hin, if_pos (by omega), hcell, if_neg (by omega), if_neg (by omega)]
    · rw [if_neg hin, hcell]
      by_cases hjt : j = t
      · rw [if_pos hjt, if_pos (by omega)]
        congr 1; omega
      · rw [if_neg hjt]
        by_cases hju : j = i - t - 1
        · rw [if_pos hju, if_pos (by omega)]
          congr 1; omega
        · rw [if_neg hju, if_neg (by omega)]

/-- The reversal loop of `itoa`, run from its start on `i` cells of `char`
values: the first `i` cells end up reversed. -/
theorem itoa_reverse_view (i : Nat) (b : Buffer) (hb : ∀ j, j < i → b.cell j < 256) :
    ∃ b4, itoa_reverse i (i / 2) 0 b = some b4 ∧ b4.view i = (b.view i).reverse ∧
      ∀ j, i ≤ j → b4.cell j = b.cell j := by
  obtain ⟨b4, hrun, hb4⟩ := itoa_reverse_spec i (i / 2) 0 b (by omega) hb
  refine ⟨b4, hrun, ?_, ?_⟩
  · apply List.ext_getElem?
    intro k
    by_cases hk : k < i
    · rw [view_getElem? b4 i k hk, List.getElem?_reverse (by rw [view_length]; exact hk),
        view_length, view_getElem? b i (i - 1 - k) (by omega), hb4 k, if_pos (by omega)]
    · rw [List.getElem?_eq_none (by rw [view_length]; omega),
        List.getElem?_eq_none (by rw [List.length_reverse, view_length]; omega)]
  · intro j hj
    rw [hb4 j, if_neg (by omega)]

theorem itoa_magnitude (n : Int) (hlo : -2147483648 ≤ n) (hhi : n ≤ 2147483647) :
    toU32 (if n < 0 then wrap32 (-n) else n) = n.natAbs := by
  by_cases h : n < 0
  · simp only [h, if_true]
    unfold toU32 wrap32; omega
  · simp only [h, if_false]
    unfold toU32; omega

/-- The reversal loop of `itoa` on the emitted characters with their NUL. -/
theorem itoa_reverse_emitted (b3 : Buffer) (emitted : List Nat)
    (hv : b3.view emitted.length = emitted) (h0 : b3.cell emitted.length = 0)
    (hb : ∀ c ∈ emitted, c < 256) :
    ∃ b4, itoa_reverse emitted.length (emitted.length / 2) 0 b3 = some b4 ∧
      b4.view emitted.length = emitted.reverse ∧ b4.cell emitted.length = 0 := by
  have hcells : ∀ j, j < emitted.length → b3.cell j < 256 := by
    intro j hj
    exact hb _ (List.getElem?_mem (cell_of_view b3 emitted.length emitted hv j hj))
  obtain ⟨b4, hrun, hview, hrest⟩ := itoa_reverse_view emitted.length b3 hcells
  exact ⟨b4, hrun, by rw [hview, hv], by rw [hrest _ (Nat.le_refl _), h0]⟩

/-- The digit characters `itoa` emits are `char` values. -/
theorem digit_chars_lt (m : Nat) : ∀ c ∈ (Nat.digits 10 m).map (fun d => d + 48), c < 256 := by
  intro c hc
  obtain ⟨d, hd, rfl⟩ := List.mem_map.mp hc
  have := Nat.digits_lt_base (by norm_num : 1 < 10) hd
  omega

/-- The function `itoa` returns for every `int`, and leaves the canonical
decimal text of its argument at the start of the buffer, followed by a NUL. -/
theorem itoa_spec (n : Int) (b : Buffer) (hlo : -2147483648 ≤ n) (hhi : n ≤ 2147483647) :
    ∃ b4, itoa n b = some b4 ∧ b4.view (decimalText n).length = decimalText n ∧
      b4.cell (decimalText n).length = 0 := by
  have hmag := itoa_magnitude n hlo hhi
  have hlt : n.natAbs < 10 ^ 10 := by norm_num; omega
  obtain ⟨b1, hrun, hview, hlen⟩ := itoa_digits_spec 10 n.natAbs b 0 hlt
  simp only [Nat.zero_add] at hrun hview
  have hv0 : b.view 0 = [] := rfl
  rw [hv0, List.nil_append] at hview
  by_cases hneg : n < 0
  · have hn0 : n ≠ 0 := by omega
    simp only [hneg, if_true] at hmag
    have hem : ((b1.store (Nat.digits 10 n.natAbs).length 45).store
        ((Nat.digits 10 n.natAbs).length + 1) 0).view
          ((Nat.digits 10 n.natAbs).map (fun d => d + 48) ++ [45]).length
        = (Nat.digits 10 n.natAbs).map (fun d => d + 48) ++ [45] := by
      rw [List.length_append, List.length_map, List.length_singleton, view_succ]
      congr 1
      · rw [← hview]
        apply view_congr
        intro j hj
        simp only [Buffer.store]
        rw [if_neg (by omega), if_neg (by omega)]
      · simp [Buffer.store]
    have h0 : ((b1.store (Nat.digits 10 n.natAbs).length 45).store
        ((Nat.digits 10 n.natAbs).length + 1) 0).cell
          ((Nat.digits 10 n.natAbs).map (fun d => d + 48) ++ [45]).length = 0 := by
      simp [Buffer.store]
    have hb : ∀ c ∈ (Nat.digits 10 n.natAbs).map (fun d => d + 48) ++ [45], c < 256 := by
      intro c hc
      rcases List.mem_append.mp hc with h | h
      · exact digit_chars_lt _ c h
      · simp at h; omega
    obtain ⟨b4, hrev, hv4, h04⟩ := itoa_reverse_emitted _ _ hem h0 hb
    simp only [List.length_append, List.length_map, List.length_singleton] at hrev hv4 h04
    have htext : decimalText n
        = ((Nat.digits 10 n.natAbs).map (fun d => d + 48) ++ [45]).reverse := by
      simp [decimalText, hn0, hneg, List.map_reverse]
    have htlen : (decimalText n).length = (Nat.digits 10 n.natAbs).length + 1 := by
      rw [htext]; simp
    refine ⟨b4, ?_, ?_, ?_⟩
    · simp only [itoa, hneg, decide_True, if_true, hmag, hrun, hrev, hn0, if_false]
    · rw [htlen, htext]; exact hv4
    · rw [htlen]; exact h04
  · simp only [hneg, if_false] at hmag
    have hem : (b1.store (Nat.digits 10 n.natAbs).length 0).view
          ((Nat.digits 10 n.natAbs).map (fun d => d + 48)).length
        = (Nat.digits 10 n.natAbs).map (fun d => d + 48) := by
      rw [List.length_map, ← hview]
      apply view_congr
      intro j hj
      simp only [Buffer.store]
      rw [if_neg (by omega)]
    have h0 : (b1.store (Nat.digits 10 n.natAbs).length 0).cell
          ((Nat.digits 10 n.natAbs).map (fun d => d + 48)).length = 0 := by
      simp [Buffer.store]
    obtain ⟨b4, hrev, hv4, h04⟩ := itoa_reverse_emitted _ _ hem h0 (digit_chars_lt _)
    simp only [List.length_map] at hrev hv4 h04
    by_cases hn0 : n = 0
    · subst hn0
      refine ⟨(b4.store 0 48).store 1 0, ?_, ?_, ?_⟩
      · simp only [itoa, hneg, decide_False, Bool.false_eq_true, if_false, hmag, hrun, hrev,
          if_true]
      · simp [decimalText, Buffer.view, Buffer.store, List.range_succ]
      · simp [decimalText, Buffer.store]
    · have htext : decimalText n = ((Nat.digits 10 n.natAbs).map (fun d => d + 48)).reverse := by
        simp [decimalText, hn0, hneg, List.map_reverse]
      have htlen : (decimalText n).length = (Nat.digits 10 n.natAbs).length := by
        rw [htext]; simp
      refine ⟨b4, ?_, ?_, ?_⟩
      · simp only [itoa, hneg, decide_False, Bool.false_eq_true, if_false, hmag, hrun, hrev,
          hn0]
      · rw [htlen, htext]; exact hv4
      · rw [htlen]; exact h04

/-- The digit characters of `m`, most significant first, have the decimal value `m`. -/
theorem decimalValue_digit_chars (m : Nat) :
    decimalValue ((Nat.digits 10 m).reverse.map (fun d => d + 48)) = m := by
  have h : ∀ L : List Nat,
      List.foldr (fun d a => 10 * a + (d + 48 - 48)) 0 L = Nat.ofDigits 10 L := by
    intro L
    induction L with
    | nil => rfl
    | cons d L ih =>
      rw [List.foldr_cons, ih, Nat.ofDigits_cons]
      omega
  unfold decimalValue
  rw [List.foldl_map, List.foldl_reverse, h, Nat.ofDigits_digits]

/-- The canonical decimal text splits into an optional "-" and a non-empty run
of digit characters without a leading zero (unless the text is "0") whose
signed value is the integer. -/
theorem decimalText_parts (n : Int) :
    ∃ sgn ds, decimalText n = sgn ++ ds ∧ (sgn = [] ∧ 0 ≤ n ∨ sgn = [45] ∧ n < 0) ∧ ds ≠ [] ∧
      (∀ d ∈ ds, 48 ≤ d ∧ d ≤ 57) ∧ (n ≠ 0 → ds.head? ≠ some 48) ∧ signedValue sgn ds = n := by
  by_cases h0 : n = 0
  · subst h0
    exact ⟨[], [48], by decide, by decide, by decide, by decide, by decide, by decide⟩
  · have hm : n.natAbs ≠ 0 := by omega
    have hne : Nat.digits 10 n.natAbs ≠ [] := Nat.digits_ne_nil_iff_ne_zero.mpr hm
    have hds : (Nat.digits 10 n.natAbs).reverse.map (fun d => d + 48) ≠ [] := by
      simpa using hne
    have hdig : ∀ d ∈ (Nat.digits 10 n.natAbs).reverse.map (fun d => d + 48),
        48 ≤ d ∧ d ≤ 57 := by
      intro c hc
      obtain ⟨d, hd, rfl⟩ := List.mem_map.mp hc
      have := Nat.digits_lt_base (by norm_num : 1 < 10) (List.mem_reverse.mp hd)
      omega
    have hlead : ((Nat.digits 10 n.natAbs).reverse.map (fun d => d + 48)).head? ≠ some 48 := by
      have hlast := Nat.getLast_digit_ne_zero 10 hm
      rw [List.head?_map, List.head?_reverse, List.getLast?_eq_getLast _ hne]
      simp only [Option.map_some', ne_eq, Option.some.injEq]
      omega
    have hval := decimalValue_digit_chars n.natAbs
    by_cases hneg : n < 0
    · refine ⟨[45], _, by simp [decimalText, h0, hneg], Or.inr ⟨rfl, hneg⟩, hds, hdig,
        fun _ => hlead, ?_⟩
      simp only [signedValue, if_true, hval]
      omega
    · refine ⟨[], _, by simp [decimalText, h0, hneg], Or.inl ⟨rfl, by omega⟩, hds, hdig,
        fun _ => hlead, ?_⟩
      simp only [signedValue, List.nil_eq, reduceCtorEq, if_false, hval]
      omega

theorem decimalText_length_le (n : Int) (hlo : -2147483648 ≤ n) (hhi : n ≤ 2147483647) :
    (decimalText n).length ≤ 11 := by
  by_cases h0 : n = 0
  · subst h0; decide
  · have hlen : (Nat.digits 10 n.natAbs).length ≤ 10 := by
      by_contra hc
      have h1 := Nat.base_pow_length_digits_le 10 n.natAbs (by norm_num) (by omega)
      have h2 : 10 ^ 11 ≤ 10 ^ (Nat.digits 10 n.natAbs).length :=
        Nat.pow_le_pow_right (by norm_num) (by omega)
      have h3 : (10 : Nat) ^ 11 = 100000000000 := by norm_num
      omega
    simp only [decimalText, h0, if_false, List.length_append, List.length_map,
      List.length_reverse]
    split <;> simp <;> omega

theorem decimalText_ne_nul (n : Int) : ∀ c ∈ decimalText n, c ≠ 0 := by
  obtain ⟨sgn, ds, htext, hs, _, hd, _, _⟩ := decimalText_parts n
  intro c hc
  rw [htext] at hc
  rcases List.mem_append.mp hc with h | h
  · rcases hs with ⟨rfl, _⟩ | ⟨rfl, _⟩
    · simp at h
    · simp at h; omega
  · have := hd c h; omega

/-- The function `strtoi` reads back the canonical decimal text of an `int`,
whatever follows its NUL. -/
theorem strtoi_decimalText (n : Int) (rest : List Nat) (hlo : -2147483648 ≤ n)
    (hhi : n ≤ 2147483647) (hr : ¬ (48 ≤ deref rest ∧ deref rest ≤ 57)) :
    strtoi (decimalText n ++ rest) = n := by
  obtain ⟨sgn, ds, htext, hs, hne, hd, _, hval⟩ := decimalText_parts n
  have hsign : IsSignOf sgn ds rest := by
    rcases hs with ⟨rfl, _⟩ | ⟨rfl, _⟩
    · exact isSignOf_of_digits ds rest hd (fun he => absurd he hne)
    · exact Or.inr (Or.inr rfl)
  rw [htext, strtoi_spec sgn ds rest hsign hd hr, hval, if_pos ⟨hlo, hhi⟩]

/-! ## itoa: claims -/

/-- C7: for every signed 32-bit n, `itoa n` returns and leaves in the buffer
the NUL-terminated canonical decimal text of n: "0" for 0, otherwise an
optional "-" and the digits of the magnitude, most significant first, without
a leading zero, with the value n ("-2147483648" for -2^31). The XOR-swap loop
reverses the cells it is run on. -/
theorem itoa_canonical (n : Int) (b : Buffer) (hlo : -2147483648 ≤ n) (hhi : n ≤ 2147483647) :
    (∃ b4, itoa n b = some b4 ∧ cstr (b4.view MAX_LINE_SIZE) = decimalText n ∧
      b4.view (decimalText n).length = decimalText n ∧
      b4.cell (decimalText n).length = 0 ∧ (decimalText n).length < MAX_LINE_SIZE) ∧
    (∃ sgn ds, decimalText n = sgn ++ ds ∧ (sgn = [] ∧ 0 ≤ n ∨ sgn = [45] ∧ n < 0) ∧ ds ≠ [] ∧
      (∀ d ∈ ds, 48 ≤ d ∧ d ≤ 57) ∧ (n ≠ 0 → ds.head? ≠ some 48) ∧ signedValue sgn ds = n) ∧
    decimalText 0 = [48] ∧
    decimalText (-2147483648) = [45, 50, 49, 52, 55, 52, 56, 51, 54, 52, 56] ∧
    (∀ (i : Nat) (c : Buffer), (∀ j, j < i → c.cell j < 256) →
      ∃ r, itoa_reverse i (i / 2) 0 c = some r ∧ r.view i = (c.view i).reverse ∧
        ∀ j, i ≤ j → r.cell j = c.cell j) := by
  obtain ⟨b4, hrun, hview, hnul⟩ := itoa_spec n b hlo hhi
  have hlen := decimalText_length_le n hlo hhi
  have hlt : (decimalText n).length < MAX_LINE_SIZE := by unfold MAX_LINE_SIZE; omega
  refine ⟨⟨b4, hrun, ?_, hview, hnul, hlt⟩, decimalText_parts n, by decide, ?_, ?_⟩
  · exact cstr_view b4 (decimalText n) MAX_LINE_SIZE hlt hview hnul (decimalText_ne_nul n)
  · norm_num [decimalText]
  · intro i c hc
    exact itoa_reverse_view i c hc

theorem itoa_canonical_witness :
    ∃ b4, itoa (-7) Buffer.zeroed = some b4 ∧ cstr (b4.view MAX_LINE_SIZE) = decimalText (-7) ∧
      b4.view (decimalText (-7)).length = decimalText (-7) ∧
      b4.cell (decimalText (-7)).length = 0 ∧ (decimalText (-7)).length < MAX_LINE_SIZE :=
  (itoa_canonical (-7) Buffer.zeroed (by decide) (by decide)).1

/-! ## Round trip: claim -/

/-- C1: for every signed 32-bit n (INT_MIN included, the negation in `itoa`
taken modulo 2^32), `strtoi` applied to the NUL-terminated text that `itoa n`
leaves in its buffer returns n. -/
theorem strtoi_itoa (n : Int) (b : Buffer) (hlo : -2147483648 ≤ n) (hhi : n ≤ 2147483647) :
    ∃ b4, itoa n b = some b4 ∧ strtoi (b4.view MAX_LINE_SIZE) = n ∧
      strtoi (cstr (b4.view MAX_LINE_SIZE)) = n := by
  obtain ⟨b4, hrun, hview, hnul⟩ := itoa_spec n b hlo hhi
  have hlen := decimalText_length_le n hlo hhi
  have hlt : (decimalText n).length < MAX_LINE_SIZE := by unfold MAX_LINE_SIZE; omega
  obtain ⟨rest, hrest⟩ := view_split b4 (decimalText n).length MAX_LINE_SIZE hlt
  rw [hview, hnul] at hrest
  refine ⟨b4, hrun, ?_, ?_⟩
  · rw [hrest]
    exact strtoi_decimalText n (0 :: rest) hlo hhi (by simp [deref])
  · rw [cstr_view b4 (decimalText n) MAX_LINE_SIZE hlt hview hnul (decimalText_ne_nul n)]
    have h := strtoi_decimalText n [] hlo hhi (by simp [deref])
    rwa [List.append_nil] at h

theorem strtoi_itoa_witness :
    ∃ b4, itoa (-2147483648) Buffer.zeroed = some b4 ∧
      strtoi (b4.view MAX_LINE_SIZE) = -2147483648 ∧
      strtoi (cstr (b4.view MAX_LINE_SIZE)) = -2147483648 :=
  strtoi_itoa (-2147483648) Buffer.zeroed (by decide) (by decide)

/-! ## uart_getline: lemmas -/

theorem uart_receive_none (polls : List Poll) (h : received polls = []) :
    uart_receive polls = none := by
  induction polls with
  | nil => rfl
  | cons p ps ih =>
    by_cases hp : check_bit p.stat 5 ≠ 0
    · simp [received, List.filter_cons, hp] at h
    · have h2 : received ps = [] := by
        simpa [received, List.filter_cons, hp] using h
      rw [uart_receive, if_neg hp]
      exact ih h2

theorem uart_receive_some (polls : List Poll) (c : Nat) (rx : List Nat)
    (h : received polls = c :: rx) :
    ∃ ps, uart_receive polls = some (c, ps) ∧ received ps = rx ∧ c < 256 := by
  induction polls with
  | nil => simp [received] at h
  | cons p ps ih =>
    by_cases hp : check_bit p.stat 5 ≠ 0
    · have h2 : p.data % 256 = c ∧ received ps = rx := by
        simpa [received, List.filter_cons, hp] using h
      refine ⟨ps, ?_, h2.2, ?_⟩
      · rw [uart_receive, if_pos hp, h2.1]
      · have := Nat.mod_lt p.data (by norm_num : 0 < 256)
        omega
    · have h2 : received ps = c :: rx := by
        simpa [received, List.filter_cons, hp] using h
      obtain ⟨qs, hq, hr, hc⟩ := ih h2
      exact ⟨qs, by rw [uart_receive, if_neg hp, hq], hr, hc⟩

/-- A line feed at offset `k` of the input, reached with write offset `i` and
`i + k` at most `MAX_LINE_SIZE`: the loop of `uart_getline` consumes `k + 1`
bytes, stores them from cell `i` on, writes NUL behind them and returns. -/
theorem uart_getline_loop_lf :
    ∀ (k fuel : Nat) (u : Uart) (b : Buffer) (i : Nat), k < fuel → i + k ≤ 255 →
      (received u.polls)[k]? = some 10 →
      (∀ j, j < k → (received u.polls)[j]? ≠ some 10) →
      ∃ b1 u1, uart_getline_loop fuel u b i = some (b1, u1) ∧
        received u1.polls = (received u.polls).drop (k + 1) ∧ u1.sent = u.sent ∧
        (∀ j, i ≤ j → j ≤ i + k → (received u.polls)[j - i]? = some (b1.cell j)) ∧
        b1.cell (i + k + 1) = 0 ∧
        (∀ j, (j < i ∨ i + k + 1 < j) → b1.cell j = b.cell j) ∧
        (∀ w, w ∈ b1.writes ↔ (w ∈ b.writes ∨ (i ≤ w ∧ w ≤ i + k + 1))) := by
  intro k
  induction k with
  | zero =>
    intro fuel u b i hf _ hk _
    obtain ⟨f, rfl⟩ : ∃ f, fuel = f + 1 := ⟨fuel - 1, by omega⟩
    obtain ⟨rx, hrx⟩ : ∃ rx, received u.polls = 10 :: rx := by
      cases hr : received u.polls with
      | nil => rw [hr] at hk; simp at hk
      | cons c rx => rw [hr] at hk; simp at hk; exact ⟨rx, by rw [hk]⟩
    obtain ⟨ps, hq, hps, _⟩ := uart_receive_some u.polls 10 rx hrx
    refine ⟨(b.store i 10).store (i + 1) 0, { polls := ps, sent := u.sent }, ?_, ?_, rfl,
      ?_, ?_, ?_, ?_⟩
    · simp only [uart_getline_loop, hq, if_true]
    · rw [hps, hrx]; rfl
    · intro j h1 h2
      have hj : j = i := by omega
      subst hj
      simp [hrx, Buffer.store]
    · simp [Buffer.store]
    · intro j hj
      simp only [Buffer.store]
      rw [if_neg (by omega), if_neg (by omega)]
    · intro w
      simp only [Buffer.store, List.mem_cons]
      by_cases hm : w ∈ b.writes
      · simp [hm]
      · simp only [hm, or_false, false_or]
        omega
  | succ k ih =>
    intro fuel u b i hf hik hk hno
    obtain ⟨f, rfl⟩ : ∃ f, fuel = f + 1 := ⟨fuel - 1, by omega⟩
    obtain ⟨c, rx, hrx, hc⟩ : ∃ c rx, received u.polls = c :: rx ∧ c ≠ 10 := by
      cases hr : received u.polls with
      | nil => rw [hr] at hk; simp at hk
      | cons c rx =>
        refine ⟨c, rx, rfl, ?_⟩
        have h0 := hno 0 (by omega)
        rw [hr] at h0
        simpa using h0
    obtain ⟨ps, hq, hps, hlt⟩ := uart_receive_some u.polls c rx hrx
    have hk2 : (received ps)[k]? = some 10 := by
      rw [hps]; rw [hrx] at hk; simpa using hk
    have hno2 : ∀ j, j < k → (received ps)[j]? ≠ some 10 := by
      intro j hj
      have h := hno (j + 1) (by omega)
      rw [hrx] at h
      rw [hps]; simpa using h
    obtain ⟨b1, u1, hrun, hrest, hsent, hcells, hnul, hkeep, hw1⟩ :=
      ih f { polls := ps, sent := u.sent } (b.store i c) (i + 1) (by omega) (by omega) hk2 hno2
    have hge : ¬ (i ≥ MAX_LINE_SIZE) := by unfold MAX_LINE_SIZE; omega
    refine ⟨b1, u1, ?_, ?_, hsent, ?_, ?_, ?_, ?_⟩
    · simp only [uart_getline_loop, hq, hc, if_false, hge]
      exact hrun
    · rw [hrest, hps, hrx]; rfl
    · intro j h1 h2
      by_cases hj : j = i
      · subst hj
        rw [hkeep j (Or.inl (by omega))]
        simp only [Buffer.store, if_true, Nat.sub_self, hrx, List.getElem?_cons_zero,
          Nat.mod_eq_of_lt hlt]
      · have h := hcells j (by omega) (by omega)
        rw [hps] at h
        rw [hrx, ← h]
        have e : j - i = (j - (i + 1)) + 1 := by omega
        rw [e, List.getElem?_cons_succ]
    · have e : i + (k + 1) + 1 = i + 1 + k + 1 := by omega
      rw [e]; exact hnul
    · intro j hj
      rw [hkeep j (by omega)]
      simp only [Buffer.store]
      rw [if_neg (by omega)]
    · intro w
      rw [hw1 w]
      simp only [Buffer.store, List.mem_cons]
      by_cases hm : w ∈ b.writes
      · simp [hm]
      · simp only [hm, or_false, false_or]
        omega

/-- No line feed in an input that ends before the write offset has reached
`MAX_LINE_SIZE`: the loop of `uart_getline` waits for a byte forever. -/
theorem uart_getline_loop_blocks :
    ∀ (fuel : Nat) (u : Uart) (b : Buffer) (i : Nat), (∀ c ∈ received u.polls, c ≠ 10) →
      (received u.polls).length + i ≤ 255 → uart_getline_loop fuel u b i = none := by
  intro fuel
  induction fuel with
  | zero => intro u b i _ _; rfl
  | succ f ih =>
    intro u b i hno hlen
    cases hr : received u.polls with
    | nil => simp only [uart_getline_loop, uart_receive_none u.polls hr]
    | cons c rx =>
      obtain ⟨ps, hq, hps, _⟩ := uart_receive_some u.polls c rx hr
      have hc : c ≠ 10 := hno c (by rw [hr]; exact List.mem_cons_self c rx)
      rw [hr, List.length_cons] at hlen
      have hge : ¬ (i ≥ MAX_LINE_SIZE) := by unfold MAX_LINE_SIZE; omega
      simp only [uart_getline_loop, hq, hc, if_false, hge]
      apply ih
      · intro e he
        exact hno e (by rw [hr, ← hps]; exact List.mem_cons_of_mem c he)
      · show (received ps).length + (i + 1) ≤ 255
        rw [hps]; omega

/-- No line feed among the bytes that take the write offset from `i` to
`MAX_LINE_SIZE`: the loop of `uart_getline` stores them all, the last one in
cell `MAX_LINE_SIZE`, then writes NUL into cell `MAX_LINE_SIZE - 1` and
returns. -/
theorem uart_getline_loop_full :
    ∀ (d fuel : Nat) (u : Uart) (b : Buffer) (i : Nat), i + d = 255 → d < fuel →
      d < (received u.polls).length →
      (∀ j, j ≤ d → (received u.polls)[j]? ≠ some 10) →
      ∃ b1 u1, uart_getline_loop fuel u b i = some (b1, u1) ∧
        received u1.polls = (received u.polls).drop (d + 1) ∧ u1.sent = u.sent ∧
        (∀ j, i ≤ j → j ≤ 255 → j ≠ 254 → (received u.polls)[j - i]? = some (b1.cell j)) ∧
        b1.cell 254 = 0 ∧
        (∀ j, (j < i ∨ 255 < j) → j ≠ 254 → b1.cell j = b.cell j) ∧
        (∀ w, w ∈ b1.writes ↔ (w ∈ b.writes ∨ (i ≤ w ∧ w ≤ 255) ∨ w = 254)) := by
  intro d
  induction d with
  | zero =>
    intro fuel u b i hi hf hlen hno
    obtain ⟨f, rfl⟩ : ∃ f, fuel = f + 1 := ⟨fuel - 1, by omega⟩
    obtain ⟨c, rx, hrx, hc⟩ : ∃ c rx, received u.polls = c :: rx ∧ c ≠ 10 := by
      cases hr : received u.polls with
      | nil => rw [hr] at hlen; simp at hlen
      | cons c rx =>
        refine ⟨c, rx, rfl, ?_⟩
        have h0 := hno 0 (by omega)
        rw [hr] at h0
        simpa using h0
    obtain ⟨ps, hq, hps, hlt⟩ := uart_receive_some u.polls c rx hrx
    have hi2 : i = 255 := by omega
    subst hi2
    refine ⟨(b.store 255 c).store 254 0, { polls := ps, sent := u.sent }, ?_, ?_, rfl,
      ?_, ?_, ?_, ?_⟩
    · simp [uart_getline_loop, hq, hc, MAX_LINE_SIZE]
    · rw [hps, hrx]; rfl
    · intro j h1 h2 _
      have hj : j = 255 := by omega
      subst hj
      simp [hrx, Buffer.store, Nat.mod_eq_of_lt hlt]
    · simp [Buffer.store]
    · intro j hj hj2
      simp only [Buffer.store]
      rw [if_neg hj2, if_neg (by omega)]
    · intro w
      simp only [Buffer.store, List.mem_cons]
      by_cases hm : w ∈ b.writes
      · simp [hm]
      · simp only [hm, or_false, false_or]
        omega
  | succ d ih =>
    intro fuel u b i hi hf hlen hno
    obtain ⟨f, rfl⟩ : ∃ f, fuel = f + 1 := ⟨fuel - 1, by omega⟩
    obtain ⟨c, rx, hrx, hc⟩ : ∃ c rx, received u.polls = c :: rx ∧ c ≠ 10 := by
      cases hr : received u.polls with
      | nil => rw [hr] at hlen; simp at hlen
      | cons c rx =>
        refine ⟨c, rx, rfl, ?_⟩
        have h0 := hno 0 (by omega)
        rw [hr] at h0
        simpa using h0
    obtain ⟨ps, hq, hps, hlt⟩ := uart_receive_some u.polls c rx hrx
    have hlen2 : d < (received ps).length := by
      rw [hps]; rw [hrx, List.length_cons] at hlen; omega
    have hno2 : ∀ j, j ≤ d → (received ps)[j]? ≠ some 10 := by
      intro j hj
      have h := hno (j + 1) (by omega)
      rw [hrx] at h
      rw [hps]; simpa using h
    obtain ⟨b1, u1, hrun, hrest, hsent, hcells, hnul, hkeep, hw1⟩ :=
      ih f { polls := ps, sent := u.sent } (b.store i c) (i + 1) (by omega) (by omega)
        hlen2 hno2
    have hge : ¬ (i ≥ MAX_LINE_SIZE) := by unfold MAX_LINE_SIZE; omega
    refine ⟨b1, u1, ?_, ?_, hsent, ?_, hnul, ?_, ?_⟩
    · simp only [uart_getline_loop, hq, hc, if_false, hge]
      exact hrun
    · rw [hrest, hps, hrx]; rfl
    · intro j h1 h2 h3
      by_cases hj : j = i
      · subst hj
        rw [hkeep j (Or.inl (by omega)) h3]
        simp only [Buffer.store, if_true, Nat.sub_self, hrx, List.getElem?_cons_zero,
          Nat.mod_eq_of_lt hlt]
      · have h := hcells j (by omega) h2 h3
        rw [hps] at h
        rw [hrx, ← h]
        have e : j - i = (j - (i + 1)) + 1 := by omega
        rw [e, List.getElem?_cons_succ]
    · intro j hj hj2
      rw [hkeep j (by omega) hj2]
      simp only [Buffer.store]
      rw [if_neg (by omega)]
    · intro w
      rw [hw1 w]
      simp only [Buffer.store, List.mem_cons]
      by_cases hm : w ∈ b.writes
      · simp [hm]
      · simp only [hm, or_false, false_or]
        omega

/-! ## uart_send: lemmas -/

theorem txReady_cons (p : Poll) (ps : List Poll) :
    txReady (p :: ps) = if check_bit p.stat 7 ≠ 0 then txReady ps + 1 else txReady ps := by
  by_cases hp : check_bit p.stat 7 ≠ 0
  · simp [txReady, List.filter_cons, hp]
  · simp [txReady, List.filter_cons, hp]

theorem txReady_afterReady : ∀ (polls : List Poll) (n : Nat),
    txReady (afterReady n polls) = txReady polls - n := by
  intro polls
  induction polls with
  | nil => intro n; cases n <;> simp [afterReady, txReady]
  | cons p ps ih =>
    intro n
    cases n with
    | zero => simp [afterReady]
    | succ n =>
      rw [afterReady, txReady_cons]
      by_cases hp : check_bit p.stat 7 ≠ 0
      · rw [if_pos hp, if_pos hp, ih]; omega
      · rw [if_neg hp, if_neg hp, ih]

theorem cstr_of_deref_ne (msg : List Nat) (h : deref msg ≠ 0) :
    cstr msg = deref msg :: cstr msg.tail := by
  cases msg with
  | nil => simp [deref] at h
  | cons c m =>
    have hc : c ≠ 0 := by simpa [deref] using h
    simp [cstr, deref, List.takeWhile_cons, hc]

theorem cstr_of_deref_eq (msg : List Nat) (h : deref msg = 0) : cstr msg = [] := by
  cases msg with
  | nil => rfl
  | cons c m =>
    have hc : c = 0 := by simpa [deref] using h
    simp [cstr, List.takeWhile_cons, hc]

/-- The loop of `uart_send` returns exactly when the readings to come have bit 7
set often enough for every byte of the message; the bytes written to `DATA`
are then the bytes of the message before its NUL, in order. -/
theorem uart_send_loop_eq : ∀ (polls : List Poll) (msg sent : List Nat),
    uart_send_loop polls msg sent =
      if (cstr msg).length ≤ txReady polls then
        some { polls := afterReady (cstr msg).length polls, sent := sent ++ cstr msg }
      else none := by
  intro polls
  induction polls with
  | nil =>
    intro msg sent
    by_cases h : deref msg ≠ 0
    · rw [uart_send_loop, if_pos h, cstr_of_deref_ne msg h]
      simp [txReady]
    · have h0 : deref msg = 0 := by simpa using h
      rw [uart_send_loop, if_neg h, cstr_of_deref_eq msg h0]
      simp [afterReady]
  | cons p ps ih =>
    intro msg sent
    by_cases h : deref msg ≠ 0
    · rw [uart_send_loop, if_pos h, cstr_of_deref_ne msg h, txReady_cons, List.length_cons]
      by_cases hp : check_bit p.stat 7 ≠ 0
      · rw [if_pos hp, if_pos hp, ih, afterReady, if_pos hp]
        by_cases hl : (cstr msg.tail).length ≤ txReady ps
        · rw [if_pos hl, if_pos (by omega)]
          simp
        · rw [if_neg hl, if_neg (by omega)]
      · rw [if_neg hp, if_neg hp, ih, afterReady, if_neg hp, cstr_of_deref_ne msg h,
          List.length_cons]
    · have h0 : deref msg = 0 := by simpa using h
      rw [uart_send_loop, if_neg h, cstr_of_deref_eq msg h0]
      simp [afterReady]

theorem uart_send_eq (msg : List Nat) (u : Uart) :
    uart_send msg u =
      if (cstr msg).length ≤ txReady u.polls then
        some { polls := afterReady (cstr msg).length u.polls, sent := u.sent ++ cstr msg }
      else none :=
  uart_send_loop_eq u.polls msg u.sent

/-! ## uart_getline: claims -/

theorem received_cons_ready (p : Poll) (ps : List Poll) (h : check_bit p.stat 5 ≠ 0) :
    received (p :: ps) = p.data % 256 :: received ps := by
  simp [received, List.filter_cons, h]

/-- The input made of `n` times the byte `c`, each offered by one reading of
`STAT` with RBNE set, before the readings `rest`. -/
theorem received_replicate (n c : Nat) (hc : c < 256) (rest : List Poll) :
    received (List.replicate n ⟨32, c⟩ ++ rest) = List.replicate n c ++ received rest := by
  induction n with
  | zero => rfl
  | succ n ih =>
    have hready : check_bit (⟨32, c⟩ : Poll).stat 5 ≠ 0 := by
      show check_bit 32 5 ≠ 0
      decide
    rw [List.replicate_succ, List.cons_append, received_cons_ready _ _ hready, ih,
      List.replicate_succ, List.cons_append]
    simp [Nat.mod_eq_of_lt hc]

theorem replicate_append_getElem?_last (n c d : Nat) :
    (List.replicate n c ++ [d])[n]? = some d := by
  rw [List.getElem?_append_right (by rw [List.length_replicate]), List.length_replicate,
    Nat.sub_self]
  rfl

theorem replicate_append_getElem?_lt (n c d j : Nat) (hj : j < n) :
    (List.replicate n c ++ [d])[j]? = some c := by
  rw [List.getElem?_append_left (by rw [List.length_replicate]; exact hj),
    List.getElem?_replicate, if_pos hj]

/-- C4: when the first line feed of the input is at offset k <= 253,
`uart_getline` returns after consuming exactly k + 1 bytes; the cells 0..k hold
these bytes in order (line feed and any carriage return included), cell k + 1
holds NUL, and every cell behind k + 1 is unchanged. -/
theorem uart_getline_line (u : Uart) (b : Buffer) (k : Nat) (hk : k ≤ 253)
    (hlf : (received u.polls)[k]? = some 10)
    (hno : ∀ j, j < k → (received u.polls)[j]? ≠ some 10) :
    ∃ b1 u1, uart_getline u b = some (b1, u1) ∧
      received u1.polls = (received u.polls).drop (k + 1) ∧ u1.sent = u.sent ∧
      b1.view (k + 1) = (received u.polls).take (k + 1) ∧
      b1.cell (k + 1) = 0 ∧ (∀ j, k + 1 < j → b1.cell j = b.cell j) ∧
      (∀ w, w ∈ b1.writes ↔ (w ∈ b.writes ∨ w ≤ k + 1)) := by
  obtain ⟨b1, u1, hrun, hrest, hsent, hcells, hnul, hkeep, hw⟩ :=
    uart_getline_loop_lf k (MAX_LINE_SIZE + 1) u b 0 (by unfold MAX_LINE_SIZE; omega)
      (by omega) hlf hno
  refine ⟨b1, u1, hrun, hrest, hsent, ?_, ?_, ?_, ?_⟩
  · apply List.ext_getElem?
    intro j
    rw [List.getElem?_take]
    by_cases hj : j < k + 1
    · rw [if_pos hj, view_getElem? b1 (k + 1) j hj]
      exact (hcells j (by omega) (by omega)).symm
    · rw [if_neg hj, List.getElem?_eq_none (by rw [view_length]; omega)]
  · simpa using hnul
  · intro j hj
    exact hkeep j (Or.inr (by omega))
  · intro w
    rw [hw w]
    constructor
    · rintro (h | h)
      · exact Or.inl h
      · exact Or.inr (by omega)
    · rintro (h | h)
      · exact Or.inl h
      · exact Or.inr (by omega)

theorem uart_getline_line_witness :
    ∃ b1 u1, uart_getline { polls := [⟨32, 49⟩, ⟨0, 7⟩, ⟨32, 13⟩, ⟨32, 10⟩, ⟨32, 50⟩], sent := [] }
        Buffer.zeroed = some (b1, u1) ∧
      received u1.polls = [50] ∧ u1.sent = [] ∧ b1.view 3 = [49, 13, 10] ∧ b1.cell 3 = 0 ∧
      (∀ j, 3 < j → b1.cell j = Buffer.zeroed.cell j) ∧
      (∀ w, w ∈ b1.writes ↔ (w ∈ Buffer.zeroed.writes ∨ w ≤ 3)) :=
  uart_getline_line { polls := [⟨32, 49⟩, ⟨0, 7⟩, ⟨32, 13⟩, ⟨32, 10⟩, ⟨32, 50⟩], sent := [] }
    Buffer.zeroed 2 (by decide) (by decide) (by decide)

/-- C2, evaluated on the input of 254 bytes "a" followed by a line feed:
`uart_getline` returns with the line feed in cell 254, the last cell of the
array, and the NUL terminator in cell 255, behind the array; none of the 255
cells of the array holds NUL. -/
theorem uart_getline_nul_outside (b : Buffer) :
    ∃ b1 u1, uart_getline { polls := List.replicate 254 ⟨32, 97⟩ ++ [⟨32, 10⟩], sent := [] } b
        = some (b1, u1) ∧
      b1.view MAX_LINE_SIZE = List.replicate 254 97 ++ [10] ∧
      (∀ j, j < MAX_LINE_SIZE → b1.cell j ≠ 0) ∧
      b1.cell MAX_LINE_SIZE = 0 ∧ MAX_LINE_SIZE ∈ b1.writes := by
  have hrx : received (List.replicate 254 (⟨32, 97⟩ : Poll) ++ [⟨32, 10⟩])
      = List.replicate 254 97 ++ [10] :=
    received_replicate 254 97 (by decide) [⟨32, 10⟩]
  have hlf : (received (List.replicate 254 (⟨32, 97⟩ : Poll) ++ [⟨32, 10⟩]))[254]? = some 10 := by
    rw [hrx]; exact replicate_append_getElem?_last 254 97 10
  have hno : ∀ j, j < 254 →
      (received (List.replicate 254 (⟨32, 97⟩ : Poll) ++ [⟨32, 10⟩]))[j]? ≠ some 10 := by
    intro j hj
    rw [hrx, replicate_append_getElem?_lt 254 97 10 j hj]
    decide
  obtain ⟨b1, u1, hrun, _, _, hcells, hnul, _, hw⟩ :=
    uart_getline_loop_lf 254 (MAX_LINE_SIZE + 1)
      { polls := List.replicate 254 ⟨32, 97⟩ ++ [⟨32, 10⟩], sent := [] } b 0
      (by unfold MAX_LINE_SIZE; omega) (by omega) hlf hno
  have hview : b1.view MAX_LINE_SIZE = List.replicate 254 97 ++ [10] := by
    apply List.ext_getElem?
    intro j
    by_cases hj : j < 255
    · rw [view_getElem? b1 MAX_LINE_SIZE j hj]
      have h := hcells j (by omega) (by omega)
      rw [hrx] at h
      exact h.symm
    · rw [List.getElem?_eq_none (by rw [view_length]; unfold MAX_LINE_SIZE; omega),
        List.getElem?_eq_none (by
          rw [List.length_append, List.length_replicate, List.length_singleton]; omega)]
  refine ⟨b1, u1, hrun, hview, ?_, hnul, (hw 255).mpr (Or.inr (by omega))⟩
  intro j hj
  have h := cell_of_view b1 MAX_LINE_SIZE _ hview j hj
  have hmem := List.getElem?_mem h
  rcases List.mem_append.mp hmem with h1 | h1
  · have := List.eq_of_mem_replicate h1; omega
  · have := List.mem_singleton.mp h1; omega

/-- C3, evaluated on the input of 255 bytes "a" without a line feed:
`uart_getline` stores them in the cells 0..254, moves its offset to 255 and
waits for a 256th byte; it does not return. When a line feed then arrives as
256th byte it is stored in cell 255 and NUL in cell 256, and cell 254 keeps
its "a". -/
theorem uart_getline_waits_at_capacity (b : Buffer) :
    uart_getline { polls := List.replicate 255 ⟨32, 97⟩, sent := [] } b = none ∧
    ∃ b1 u1, uart_getline { polls := List.replicate 255 ⟨32, 97⟩ ++ [⟨32, 10⟩], sent := [] } b
        = some (b1, u1) ∧
      b1.cell 254 = 97 ∧ b1.cell 255 = 10 ∧ b1.cell 256 = 0 := by
  have hrx : received (List.replicate 255 (⟨32, 97⟩ : Poll)) = List.replicate 255 97 := by
    have h := received_replicate 255 97 (by decide) []
    rw [List.append_nil] at h
    rw [h]
    exact List.append_nil _
  have hrx2 : received (List.replicate 255 (⟨32, 97⟩ : Poll) ++ [⟨32, 10⟩])
      = List.replicate 255 97 ++ [10] :=
    received_replicate 255 97 (by decide) [⟨32, 10⟩]
  constructor
  · apply uart_getline_loop_blocks
    · intro c hc
      rw [hrx] at hc
      have := List.eq_of_mem_replicate hc
      omega
    · show (received (List.replicate 255 (⟨32, 97⟩ : Poll))).length + 0 ≤ 255
      rw [hrx, List.length_replicate]
  · obtain ⟨b1, u1, hrun, _, _, hcells, hnul, _, _⟩ :=
      uart_getline_loop_lf 255 (MAX_LINE_SIZE + 1)
        { polls := List.replicate 255 ⟨32, 97⟩ ++ [⟨32, 10⟩], sent := [] } b 0
        (by unfold MAX_LINE_SIZE; omega) (by omega)
        (by rw [hrx2]; exact replicate_append_getElem?_last 255 97 10)
        (by
          intro j hj
          rw [hrx2, replicate_append_getElem?_lt 255 97 10 j hj]
          decide)
    have h254 := hcells 254 (by omega) (by omega)
    have h255 := hcells 255 (by omega) (by omega)
    rw [hrx2] at h254 h255
    rw [show 254 - 0 = 254 from rfl, replicate_append_getElem?_lt 255 97 10 254 (by omega)] at h254
    rw [show 255 - 0 = 255 from rfl, replicate_append_getElem?_last 255 97 10] at h255
    exact ⟨b1, u1, hrun, (Option.some.inj h254).symm, (Option.some.inj h255).symm, hnul⟩

/-! ## The compute loop: lemmas -/

theorem strtoi_loop_range (sign : Nat) : ∀ (p : List Nat) (sum : Int),
    -2147483648 ≤ strtoi_loop sign p sum ∧ strtoi_loop sign p sum ≤ 2147483647 := by
  intro p
  induction p with
  | nil => intro sum; exact wrap32_range _
  | cons ch p ih =>
    intro sum
    rw [strtoi_loop]
    split
    · simp only []
      split
      · omega
      · exact ih _
    · exact wrap32_range _

/-- The function `strtoi` returns an `int` on every text. -/
theorem strtoi_range (s : List Nat) : -2147483648 ≤ strtoi s ∧ strtoi s ≤ 2147483647 :=
  strtoi_loop_range _ _ _

/-- The function `fib` returns an `int` for every `int` argument. -/
theorem fib_total (n : Int) (hhi : n ≤ 2147483647) :
    ∃ r, fib n = some r ∧ -2147483648 ≤ r ∧ r ≤ 2147483647 ∧
      (n ≤ 0 → r = 0) ∧ (0 ≤ n → r = wrap32 (F n.toNat)) := by
  by_cases h : 0 ≤ n
  · refine ⟨wrap32 (F n.toNat), ?_, (wrap32_range _).1, (wrap32_range _).2, ?_, fun _ => rfl⟩
    · rw [fib, fib_run_of_nonneg n h hhi]; rfl
    · intro h0
      have : n = 0 := by omega
      subst this
      decide
  · have h1 : n.toNat = 0 := by omega
    have h2 : ¬ ((0 : Int) < n) := by omega
    exact ⟨0, by simp [fib, fib_run, h1, fib_loop, h2], by omega, by omega, fun _ => rfl,
      fun h3 => absurd h3 h⟩

theorem uart_getline_loop_sent : ∀ (fuel : Nat) (u : Uart) (b : Buffer) (i : Nat)
    (b1 : Buffer) (u1 : Uart), uart_getline_loop fuel u b i = some (b1, u1) → u1.sent = u.sent := by
  intro fuel
  induction fuel with
  | zero => intro u b i b1 u1 h; simp [uart_getline_loop] at h
  | succ f ih =>
    intro u b i b1 u1 h
    rw [uart_getline_loop] at h
    split at h
    · simp at h
    · rename_i input ps _
      simp only [] at h
      split at h
      · simp only [Option.some.injEq, Prod.mk.injEq] at h
        rw [← h.2]
      · split at h
        · simp only [Option.some.injEq, Prod.mk.injEq] at h
          rw [← h.2]
        · exact ih { polls := ps, sent := u.sent } _ _ _ _ h

theorem afterReady_nil (n : Nat) : afterReady n [] = [] := by
  cases n <;> rfl

theorem afterReady_add : ∀ (polls : List Poll) (a b : Nat),
    afterReady b (afterReady a polls) = afterReady (a + b) polls := by
  intro polls
  induction polls with
  | nil => intro a b; rw [afterReady_nil, afterReady_nil, afterReady_nil]
  | cons p ps ih =>
    intro a b
    cases a with
    | zero => rw [Nat.zero_add]; rfl
    | succ a =>
      have e : a + 1 + b = (a + b) + 1 := by omega
      rw [e, afterReady, afterReady]
      by_cases hp : check_bit p.stat 7 ≠ 0
      · rw [if_pos hp, if_pos hp, ih]
      · rw [if_neg hp, if_neg hp, ih, e]

theorem uart_send_eq_sendText (msg : List Nat) (u : Uart) :
    uart_send msg u = sendText (cstr msg) u :=
  uart_send_eq msg u

/-- Sending two texts one after the other is sending their concatenation. -/
theorem sendText_bind {α : Type} (t1 t2 : List Nat) (u : Uart) (k : Uart → Option α) :
    (sendText t1 u).bind (fun a => (sendText t2 a).bind k) = (sendText (t1 ++ t2) u).bind k := by
  unfold sendText
  by_cases h1 : t1.length ≤ txReady u.polls
  · rw [if_pos h1, Option.some_bind]
    simp only [txReady_afterReady, afterReady_add, List.length_append, List.append_assoc]
    by_cases h2 : t2.length ≤ txReady u.polls - t1.length
    · rw [if_pos h2, if_pos (by omega)]
    · rw [if_neg h2, if_neg (by omega)]
  · rw [if_neg h1, if_neg (by rw [List.length_append]; omega)]
    rfl

theorem strtoi_minus_seven (rest : List Nat) : strtoi (45 :: 55 :: 10 :: rest) = -7 := by
  have h := strtoi_spec [45] [55] (10 :: rest) (Or.inr (Or.inr rfl)) (by decide)
    (by simp [deref])
  have hv : signedValue [45] [55] = -7 := by decide
  rw [hv] at h
  exact h

theorem decimalText_minus_seven : decimalText (-7) = [45, 55] := by
  norm_num [decimalText]

/-! ## The compute loop: claim -/

/-- C10: once `uart_getline` has assembled a line, one cycle of the compute
loop sends exactly "F(" ++ dec(n) ++ ") = " ++ dec(fib(n)) ++ "\n", where n is
`strtoi` of the line and dec(x) is the text `itoa x` leaves in its buffer (the
canonical decimal text of x); the first text is sent before the second call of
`itoa` overwrites the buffer. The cycle completes exactly when `STAT` shows TBE
set once for each of these bytes. For a line that starts with "-7\n" the bytes
sent are "F(-7) = 0\n". -/
theorem fibonacci_cycle_sends (m : Machine) (g : Buffer) (u1 : Uart)
    (hget : uart_getline m.uart m.getline_buffer = some (g, u1)) :
    ∃ r i1 i2, fib (strtoi (getline_text g)) = some r ∧
      itoa (strtoi (getline_text g)) m.itoa_buffer = some i1 ∧ itoa r i1 = some i2 ∧
      cstr (i1.view MAX_LINE_SIZE) = decimalText (strtoi (getline_text g)) ∧
      cstr (i2.view MAX_LINE_SIZE) = decimalText r ∧
      ((fibonacci_cycle m).map (fun m1 => m1.uart.sent) =
        if ([70, 40] ++ cstr (i1.view MAX_LINE_SIZE) ++ [41, 32, 61, 32] ++
            cstr (i2.view MAX_LINE_SIZE) ++ [10]).length ≤ txReady u1.polls then
          some (m.uart.sent ++ ([70, 40] ++ cstr (i1.view MAX_LINE_SIZE) ++
            [41, 32, 61, 32] ++ cstr (i2.view MAX_LINE_SIZE) ++ [10]))
        else none) ∧
      (∀ rest, getline_text g = 45 :: 55 :: 10 :: rest →
        (fibonacci_cycle m).map (fun m1 => m1.uart.sent) =
          if 10 ≤ txReady u1.polls then
            some (m.uart.sent ++ [70, 40, 45, 55, 41, 32, 61, 32, 48, 10])
          else none) := by
  obtain ⟨hlo, hhi⟩ := strtoi_range (getline_text g)
  obtain ⟨r, hfib, hrlo, hrhi, hneg, _⟩ := fib_total (strtoi (getline_text g)) hhi
  obtain ⟨i1, hi1, hv1, hn1⟩ := itoa_spec (strtoi (getline_text g)) m.itoa_buffer hlo hhi
  obtain ⟨i2, hi2, hv2, hn2⟩ := itoa_spec r i1 hrlo hrhi
  have hl1 := decimalText_length_le _ hlo hhi
  have hl2 := decimalText_length_le _ hrlo hrhi
  have ht1 := cstr_view i1 _ MAX_LINE_SIZE (by unfold MAX_LINE_SIZE; omega) hv1 hn1
    (decimalText_ne_nul _)
  have ht2 := cstr_view i2 _ MAX_LINE_SIZE (by unfold MAX_LINE_SIZE; omega) hv2 hn2
    (decimalText_ne_nul _)
  have hsent : u1.sent = m.uart.sent := uart_getline_loop_sent _ _ _ _ _ _ hget
  have c1 : cstr [70, 40, 0] = [70, 40] := by decide
  have c2 : cstr [41, 32, 61, 32, 0] = [41, 32, 61, 32] := by decide
  have c3 : cstr [10, 0] = [10] := by decide
  have hcycle : (fibonacci_cycle m).map (fun m1 => m1.uart.sent) =
      if ([70, 40] ++ cstr (i1.view MAX_LINE_SIZE) ++ [41, 32, 61, 32] ++
          cstr (i2.view MAX_LINE_SIZE) ++ [10]).length ≤ txReady u1.polls then
        some (m.uart.sent ++ ([70, 40] ++ cstr (i1.view MAX_LINE_SIZE) ++
          [41, 32, 61, 32] ++ cstr (i2.view MAX_LINE_SIZE) ++ [10]))
      else none := by
    simp only [fibonacci_cycle, hget, hfib, hi1, hi2, Option.bind_eq_bind, Option.some_bind,
      uart_send_eq_sendText, c1, c2, c3, sendText_bind]
    unfold sendText
    rw [hsent]
    simp only [List.append_assoc]
    split_ifs <;> rfl
  refine ⟨r, i1, i2, hfib, hi1, hi2, ht1, ht2, hcycle, ?_⟩
  intro rest hrest
  have hn : strtoi (getline_text g) = -7 := by rw [hrest]; exact strtoi_minus_seven rest
  have hr : r = 0 := hneg (by omega)
  rw [hcycle, ht1, ht2, hn, hr, decimalText_minus_seven]
  rfl

set_option maxRecDepth 100000 in
theorem fibonacci_cycle_sends_witness :
    (fibonacci_cycle
      { uart := { polls := [⟨32, 45⟩, ⟨32, 55⟩, ⟨0, 0⟩, ⟨32, 10⟩] ++ List.replicate 10 ⟨128, 0⟩,
                  sent := [] }
        getline_buffer := Buffer.zeroed
        itoa_buffer := Buffer.zeroed }).map (fun m1 => m1.uart.sent)
      = some [70, 40, 45, 55, 41, 32, 61, 32, 48, 10] := by
  obtain ⟨_, _, _, _, _, _, _, _, _, h⟩ := fibonacci_cycle_sends
    { uart := { polls := [⟨32, 45⟩, ⟨32, 55⟩, ⟨0, 0⟩, ⟨32, 10⟩] ++ List.replicate 10 ⟨128, 0⟩,
                sent := [] }
      getline_buffer := Buffer.zeroed
      itoa_buffer := Buffer.zeroed }
    ((((Buffer.zeroed.store 0 45).store 1 55).store 2 10).store 3 0)
    { polls := List.replicate 10 ⟨128, 0⟩, sent := [] } rfl
  have h2 := h ((List.range 254).map (fun _ => 0)) (by decide)
  rw [h2]
  decide

/-! ## fib with wrap-around: claim -/

theorem F_47 : F 47 = 2971215073 := by
  rw [(F_eq_natFib 47).1]
  norm_num [Nat.fib_add_two]

theorem F_mono (a b : Nat) (h : a ≤ b) : F a ≤ F b := by
  rw [(F_eq_natFib a).1, (F_eq_natFib b).1]
  exact Nat.fib_mono h

/-- C18: for every `int` n >= 0, `fib n` is F(n) modulo 2^32 read as a signed
32-bit value; so `fib n` equals F(n) exactly when n <= 46, and `fib 47` is
-1323752223 while F(47) is 2971215073. -/
theorem fib_wraps (n : Int) (h0 : 0 ≤ n) (hn : n ≤ 2147483647) :
    fib n = some (wrap32 (F n.toNat)) ∧
      wrap32 (F n.toNat) = ((F n.toNat : Int) + 2147483648) % 4294967296 - 2147483648 ∧
      (fib n = some ((F n.toNat : Nat) : Int) ↔ n ≤ 46) ∧
      fib 47 = some (-1323752223) ∧ F 47 = 2971215073 := by
  have hfib : fib n = some (wrap32 (F n.toNat)) := by
    rw [fib, fib_run_of_nonneg n h0 hn]; rfl
  have h47 : fib 47 = some (-1323752223) := by
    rw [fib, fib_run_of_nonneg 47 (by decide) (by decide)]
    have e : (47 : Int).toNat = 47 := rfl
    rw [e, F_47]
    rfl
  refine ⟨hfib, rfl, ?_, h47, F_47⟩
  rw [hfib]
  constructor
  · intro h
    by_contra hgt
    have h1 : wrap32 (F n.toNat) = ((F n.toNat : Nat) : Int) := Option.some.inj h
    have h2 := (wrap32_range (F n.toNat)).2
    have h3 : F 47 ≤ F n.toNat := F_mono 47 n.toNat (by omega)
    rw [F_47] at h3
    omega
  · intro h
    have hF := F_le_of_le_46 n.toNat (by omega)
    rw [wrap32_of_range] <;> omega

theorem fib_wraps_witness :
    fib 47 = some (wrap32 (F (47 : Int).toNat)) ∧ fib 47 = some (-1323752223) :=
  ⟨(fib_wraps 47 (by decide) (by decide)).1, (fib_wraps 47 (by decide) (by decide)).2.2.2.1⟩

/-! ## The accumulator of strtoi: claim -/

theorem strtoi_loop_observed_fst (sign : Nat) : ∀ (p : List Nat) (sum : Int),
    (strtoi_loop_observed sign p sum).1 = strtoi_loop sign p sum := by
  intro p
  induction p with
  | nil => intro sum; rfl
  | cons ch p ih =>
    intro sum
    rw [strtoi_loop_observed, strtoi_loop]
    split
    · simp only []
      split
      · rfl
      · exact ih _
    · rfl

/-- Every round of the loop of `strtoi` that is entered with `sum` in
[-2^31, 0] starts with `sum` in that range, and its update stays in
[-21474836489, 0], far inside the `long long` range. -/
theorem strtoi_loop_observed_range (sign : Nat) : ∀ (p : List Nat) (sum : Int),
    -2147483648 ≤ sum → sum ≤ 0 →
    ∀ x raw, (x, raw) ∈ (strtoi_loop_observed sign p sum).2 →
      -2147483648 ≤ x ∧ x ≤ 0 ∧ -21474836489 ≤ raw ∧ raw ≤ 0 ∧
        wrap64 (x * 10) = x * 10 ∧ wrap64 raw = raw := by
  intro p
  induction p with
  | nil => intro sum _ _ x raw h; simp [strtoi_loop_observed] at h
  | cons ch p ih =>
    intro sum hlo hhi x raw h
    rw [strtoi_loop_observed] at h
    by_cases hd : 48 ≤ ch ∧ ch ≤ 57
    · rw [if_pos hd] at h
      have hraw : -21474836489 ≤ sum * 10 - ((ch : Int) - 48) ∧
          sum * 10 - ((ch : Int) - 48) ≤ 0 := by omega
      have hw1 : wrap64 (sum * 10) = sum * 10 := wrap64_of_range _ (by omega) (by omega)
      have hw2 : wrap64 (sum * 10 - ((ch : Int) - 48)) = sum * 10 - ((ch : Int) - 48) :=
        wrap64_of_range _ (by omega) (by omega)
      have hhere : -2147483648 ≤ sum ∧ sum ≤ 0 ∧ -21474836489 ≤ sum * 10 - ((ch : Int) - 48) ∧
          sum * 10 - ((ch : Int) - 48) ≤ 0 ∧ wrap64 (sum * 10) = sum * 10 ∧
          wrap64 (sum * 10 - ((ch : Int) - 48)) = sum * 10 - ((ch : Int) - 48) :=
        ⟨hlo, hhi, hraw.1, hraw.2, hw1, hw2⟩
      simp only [] at h
      split at h
      · rw [List.mem_singleton, Prod.mk.injEq] at h
        rw [h.1, h.2]; exact hhere
      · rename_i herr
        rw [List.mem_cons] at h
        rcases h with h | h
        · rw [Prod.mk.injEq] at h
          rw [h.1, h.2]; exact hhere
        · rw [hw1, hw2] at herr h
          exact ih _ (by omega) (by omega) x raw h
    · rw [if_neg hd] at h
      simp at h

/-- C20: in every call of `strtoi`, the accumulator `sum` lies in [-2^31, 0]
at the start of every round of the loop, so the update `sum * 10 - digit` lies
in [-21474836489, 0] and neither the product nor the update overflows the
64-bit `long long`, however many digits the text has. -/
theorem strtoi_accumulator (s : List Nat) (x raw : Int)
    (h : (x, raw) ∈ (strtoi_observed s).2) :
    (strtoi_observed s).1 = strtoi s ∧
      -2147483648 ≤ x ∧ x ≤ 0 ∧ -21474836489 ≤ raw ∧ raw ≤ 0 ∧
      wrap64 (x * 10) = x * 10 ∧ wrap64 raw = raw :=
  ⟨strtoi_loop_observed_fst _ _ _,
    strtoi_loop_observed_range _ _ 0 (by decide) (by decide) x raw h⟩

theorem strtoi_accumulator_witness :
    (strtoi_observed [45, 50, 49, 52, 55, 52, 56, 51, 54, 52, 56, 57]).1
        = strtoi [45, 50, 49, 52, 55, 52, 56, 51, 54, 52, 56, 57] ∧
      -2147483648 ≤ (-2147483648 : Int) ∧ (-2147483648 : Int) ≤ 0 ∧
      -21474836489 ≤ (-21474836489 : Int) ∧ (-21474836489 : Int) ≤ 0 ∧
      wrap64 (-2147483648 * 10) = -2147483648 * 10 ∧ wrap64 (-21474836489) = -21474836489 :=
  strtoi_accumulator [45, 50, 49, 52, 55, 52, 56, 51, 54, 52, 56, 57] (-2147483648)
    (-21474836489) (by decide)

/-! ## uart_send: claim -/

/-- The readings up to the `n`-th one with bit 7 set end with that reading. -/
theorem afterReady_split : ∀ (polls : List Poll) (n : Nat), 1 ≤ n → n ≤ txReady polls →
    ∃ pre p, polls = pre ++ p :: afterReady n polls ∧ check_bit p.stat 7 ≠ 0 ∧
      txReady pre + 1 = n := by
  intro polls
  induction polls with
  | nil => intro n h1 h2; simp [txReady] at h2; omega
  | cons q qs ih =>
    intro n h1 h2
    obtain ⟨k, rfl⟩ : ∃ k, n = k + 1 := ⟨n - 1, by omega⟩
    rw [txReady_cons] at h2
    by_cases hq : check_bit q.stat 7 ≠ 0
    · rw [if_pos hq] at h2
      by_cases hk : k = 0
      · subst hk
        refine ⟨[], q, ?_, hq, rfl⟩
        rw [afterReady, if_pos hq]
        simp [afterReady]
      · obtain ⟨pre, p, hsplit, hp, hcount⟩ := ih k (by omega) (by omega)
        refine ⟨q :: pre, p, ?_, hp, ?_⟩
        · rw [afterReady, if_pos hq, List.cons_append, ← hsplit]
        · rw [txReady_cons, if_pos hq]; omega
    · rw [if_neg hq] at h2
      obtain ⟨pre, p, hsplit, hp, hcount⟩ := ih (k + 1) (by omega) h2
      refine ⟨q :: pre, p, ?_, hp, ?_⟩
      · rw [afterReady, if_neg hq, List.cons_append, ← hsplit]
      · rw [txReady_cons, if_neg hq]; exact hcount

/-- C14: for every message and every sequence of readings of `STAT`,
`uart_send` writes to `DATA` exactly the bytes of the message before its first
NUL, in order and once each, and returns right behind the reading on which the
last of them is written: the reading that has bit 7 (TBE) set for the
len(msg)-th time. A reading with bit 7 clear causes no write and no advance, a
reading with bit 7 set writes the current byte and advances by one. -/
theorem uart_send_writes (msg : List Nat) (u : Uart) :
    (uart_send msg u =
      if (cstr msg).length ≤ txReady u.polls then
        some { polls := afterReady (cstr msg).length u.polls, sent := u.sent ++ cstr msg }
      else none) ∧
    (1 ≤ (cstr msg).length → (cstr msg).length ≤ txReady u.polls →
      ∃ pre p, u.polls = pre ++ p :: afterReady (cstr msg).length u.polls ∧
        check_bit p.stat 7 ≠ 0 ∧ txReady pre + 1 = (cstr msg).length) ∧
    (deref msg = 0 → uart_send msg u = some u) ∧
    (∀ (p : Poll) (ps : List Poll) (sent : List Nat), deref msg ≠ 0 → check_bit p.stat 7 = 0 →
      uart_send_loop (p :: ps) msg sent = uart_send_loop ps msg sent) ∧
    (∀ (p : Poll) (ps : List Poll) (sent : List Nat), deref msg ≠ 0 → check_bit p.stat 7 ≠ 0 →
      uart_send_loop (p :: ps) msg sent = uart_send_loop ps msg.tail (sent ++ [deref msg])) := by
  refine ⟨uart_send_eq msg u, afterReady_split u.polls _, ?_, ?_, ?_⟩
  · intro h0
    have hn : ¬ (deref msg ≠ 0) := fun h => h h0
    unfold uart_send
    cases hp : u.polls with
    | nil =>
      rw [uart_send_loop, if_neg hn, ← hp]
    | cons p ps =>
      rw [uart_send_loop, if_neg hn, ← hp]
  · intro p ps sent hm hp
    rw [uart_send_loop, if_pos hm, if_neg (fun h => h hp)]
  · intro p ps sent hm hp
    rw [uart_send_loop, if_pos hm, if_pos hp]

theorem uart_send_writes_witness :
    uart_send [72, 105, 0, 33]
        { polls := [⟨0, 0⟩, ⟨128, 0⟩, ⟨32, 0⟩, ⟨192, 0⟩, ⟨128, 0⟩], sent := [] }
      = some { polls := [⟨128, 0⟩], sent := [72, 105] } :=
  (uart_send_writes [72, 105, 0, 33]
    { polls := [⟨0, 0⟩, ⟨128, 0⟩, ⟨32, 0⟩, ⟨192, 0⟩, ⟨128, 0⟩], sent := [] }).1.trans rfl

/-! ## uart_getline at the end of the buffer: lemmas -/

theorem first_lf_cases (rx : List Nat) :
    (∃ k : Nat, rx[k]? = some 10 ∧ ∀ j : Nat, j < k → rx[j]? ≠ some 10) ∨
      (∀ c ∈ rx, c ≠ 10) := by
  induction rx with
  | nil => right; intro c hc; simp at hc
  | cons c rx ih =>
    by_cases hc : c = 10
    · left
      exact ⟨0, by simp [hc], fun j hj => absurd hj (Nat.not_lt_zero j)⟩
    · rcases ih with ⟨k, hk, hno⟩ | hno
      · left
        refine ⟨k + 1, by simpa using hk, ?_⟩
        intro j hj
        cases j with
        | zero => simpa using hc
        | succ j => simpa using hno j (by omega)
      · right
        intro d hd
        rcases List.mem_cons.mp hd with h | h
        · rw [h]; exact hc
        · exact hno d h

theorem getElem?_ne_of_forall_ne (rx : List Nat) (h : ∀ c ∈ rx, c ≠ 10) (j : Nat) :
    rx[j]? ≠ some 10 := by
  intro hj
  exact h 10 (List.getElem?_mem hj) rfl

/-- One round of the loop of `uart_getline` that does not wait forever has
received a byte. -/
theorem uart_getline_loop_received (f : Nat) (u : Uart) (b : Buffer) (i : Nat) (b1 : Buffer)
    (u1 : Uart) (h : uart_getline_loop (f + 1) u b i = some (b1, u1)) :
    ∃ c rx ps, received u.polls = c :: rx ∧ uart_receive u.polls = some (c, ps) ∧
      received ps = rx ∧ c < 256 := by
  cases hr : received u.polls with
  | nil =>
    rw [uart_getline_loop, uart_receive_none u.polls hr] at h
    simp at h
  | cons c rx =>
    obtain ⟨ps, hq, hps, hc⟩ := uart_receive_some u.polls c rx hr
    exact ⟨c, rx, ps, rfl, hq, hps, hc⟩

/-- The last two writes of a call that ends on a line feed at offset `k`: the
line feed into cell `i + k`, then NUL into cell `i + k + 1`. -/
theorem uart_getline_loop_lf_order :
    ∀ (k fuel : Nat) (u : Uart) (b : Buffer) (i : Nat) (b1 : Buffer) (u1 : Uart),
      i + k ≤ 255 → (received u.polls)[k]? = some 10 →
      (∀ j, j < k → (received u.polls)[j]? ≠ some 10) →
      uart_getline_loop fuel u b i = some (b1, u1) →
      ∃ rest, b1.writes = (i + k + 1) :: (i + k) :: rest := by
  intro k
  induction k with
  | zero =>
    intro fuel u b i b1 u1 _ hk _ h
    cases fuel with
    | zero => simp [uart_getline_loop] at h
    | succ f =>
      obtain ⟨c, rx, ps, hrx, hq, _, _⟩ := uart_getline_loop_received f u b i b1 u1 h
      have hc : c = 10 := by rw [hrx] at hk; simpa using hk
      subst hc
      simp only [uart_getline_loop, hq, if_true, Option.some.injEq, Prod.mk.injEq] at h
      refine ⟨b.writes, ?_⟩
      rw [← h.1]
      rfl
  | succ k ih =>
    intro fuel u b i b1 u1 hik hk hno h
    cases fuel with
    | zero => simp [uart_getline_loop] at h
    | succ f =>
      obtain ⟨c, rx, ps, hrx, hq, hps, _⟩ := uart_getline_loop_received f u b i b1 u1 h
      have hc : c ≠ 10 := by
        have h0 := hno 0 (by omega)
        rw [hrx] at h0
        simpa using h0
      have hge : ¬ (i ≥ MAX_LINE_SIZE) := by unfold MAX_LINE_SIZE; omega
      simp only [uart_getline_loop, hq, hc, if_false, hge] at h
      have hk2 : (received ps)[k]? = some 10 := by
        rw [hps]; rw [hrx] at hk; simpa using hk
      have hno2 : ∀ j, j < k → (received ps)[j]? ≠ some 10 := by
        intro j hj
        have h1 := hno (j + 1) (by omega)
        rw [hrx] at h1
        rw [hps]; simpa using h1
      obtain ⟨rest, hrest⟩ := ih f { polls := ps, sent := u.sent } (b.store i c) (i + 1) b1 u1
        (by omega) hk2 hno2 h
      refine ⟨rest, ?_⟩
      rw [hrest]
      have e1 : i + 1 + k + 1 = i + (k + 1) + 1 := by omega
      have e2 : i + 1 + k = i + (k + 1) := by omega
      rw [e1, e2]

/-- The last two writes of a call that ends on the capacity check: the 256th
byte into cell `MAX_LINE_SIZE`, then NUL into cell `MAX_LINE_SIZE - 1`. -/
theorem uart_getline_loop_full_order :
    ∀ (d fuel : Nat) (u : Uart) (b : Buffer) (i : Nat) (b1 : Buffer) (u1 : Uart),
      i + d = 255 → (∀ j, j ≤ d → (received u.polls)[j]? ≠ some 10) →
      uart_getline_loop fuel u b i = some (b1, u1) →
      ∃ rest, b1.writes = 254 :: 255 :: rest := by
  intro d
  induction d with
  | zero =>
    intro fuel u b i b1 u1 hi hno h
    cases fuel with
    | zero => simp [uart_getline_loop] at h
    | succ f =>
      obtain ⟨c, rx, ps, hrx, hq, _, _⟩ := uart_getline_loop_received f u b i b1 u1 h
      have hc : c ≠ 10 := by
        have h0 := hno 0 (by omega)
        rw [hrx] at h0
        simpa using h0
      have hi2 : i = 255 := by omega
      subst hi2
      have hge : (255 : Nat) ≥ MAX_LINE_SIZE := by unfold MAX_LINE_SIZE; omega
      simp only [uart_getline_loop, hq, hc, if_false, hge, if_true, Option.some.injEq,
        Prod.mk.injEq] at h
      refine ⟨b.writes, ?_⟩
      rw [← h.1]
      rfl
  | succ d ih =>
    intro fuel u b i b1 u1 hi hno h
    cases fuel with
    | zero => simp [uart_getline_loop] at h
    | succ f =>
      obtain ⟨c, rx, ps, hrx, hq, hps, _⟩ := uart_getline_loop_received f u b i b1 u1 h
      have hc : c ≠ 10 := by
        have h0 := hno 0 (by omega)
        rw [hrx] at h0
        simpa using h0
      have hge : ¬ (i ≥ MAX_LINE_SIZE) := by unfold MAX_LINE_SIZE; omega
      simp only [uart_getline_loop, hq, hc, if_false, hge] at h
      have hno2 : ∀ j, j ≤ d → (received ps)[j]? ≠ some 10 := by
        intro j hj
        have h1 := hno (j + 1) (by omega)
        rw [hrx] at h1
        rw [hps]; simpa using h1
      exact ih f { polls := ps, sent := u.sent } (b.store i c) (i + 1) b1 u1 (by omega) hno2 h

/-- A call of `uart_getline` on an input with its first line feed at offset
`k`, at most `MAX_LINE_SIZE`. -/
theorem uart_getline_of_lf (u : Uart) (b : Buffer) (k : Nat) (hk : k ≤ 255)
    (hlf : (received u.polls)[k]? = some 10)
    (hno : ∀ j, j < k → (received u.polls)[j]? ≠ some 10) :
    ∃ b1 u1, uart_getline u b = some (b1, u1) ∧
      received u1.polls = (received u.polls).drop (k + 1) ∧
      (∀ j, j ≤ k → (received u.polls)[j]? = some (b1.cell j)) ∧ b1.cell (k + 1) = 0 ∧
      (∀ w, w ∈ b1.writes ↔ (w ∈ b.writes ∨ w ≤ k + 1)) ∧
      ∃ rest, b1.writes = (k + 1) :: k :: rest := by
  obtain ⟨b1, u1, hrun, hrest, _, hcells, hnul, _, hw⟩ :=
    uart_getline_loop_lf k (MAX_LINE_SIZE + 1) u b 0 (by unfold MAX_LINE_SIZE; omega)
      (by omega) hlf hno
  obtain ⟨rest, hord⟩ := uart_getline_loop_lf_order k (MAX_LINE_SIZE + 1) u b 0 b1 u1
    (by omega) hlf hno hrun
  refine ⟨b1, u1, hrun, hrest, ?_, by simpa using hnul, ?_, rest, by simpa using hord⟩
  · intro j hj
    exact hcells j (by omega) (by omega)
  · intro w
    rw [hw w]
    constructor
    · rintro (h | h)
      · exact Or.inl h
      · exact Or.inr (by omega)
    · rintro (h | h)
      · exact Or.inl h
      · exact Or.inr (by omega)

/-- A call of `uart_getline` on an input of at least `MAX_LINE_SIZE + 1` bytes
without a line feed among them. -/
theorem uart_getline_of_full (u : Uart) (b : Buffer)
    (hlen : 256 ≤ (received u.polls).length)
    (hno : ∀ j, j < 256 → (received u.polls)[j]? ≠ some 10) :
    ∃ b1 u1, uart_getline u b = some (b1, u1) ∧
      received u1.polls = (received u.polls).drop 256 ∧
      (∀ j, j ≤ 255 → j ≠ 254 → (received u.polls)[j]? = some (b1.cell j)) ∧ b1.cell 254 = 0 ∧
      (∀ w, w ∈ b1.writes ↔ (w ∈ b.writes ∨ w ≤ 255)) ∧
      ∃ rest, b1.writes = 254 :: 255 :: rest := by
  have hno2 : ∀ j, j ≤ 255 → (received u.polls)[j]? ≠ some 10 := fun j hj => hno j (by omega)
  obtain ⟨b1, u1, hrun, hrest, _, hcells, hnul, _, hw⟩ :=
    uart_getline_loop_full 255 (MAX_LINE_SIZE + 1) u b 0 (by omega)
      (by unfold MAX_LINE_SIZE; omega) (by omega) hno2
  obtain ⟨rest, hord⟩ := uart_getline_loop_full_order 255 (MAX_LINE_SIZE + 1) u b 0 b1 u1
    (by omega) hno2 hrun
  refine ⟨b1, u1, hrun, hrest, ?_, hnul, ?_, rest, hord⟩
  · intro j hj hj2
    exact hcells j (by omega) hj hj2
  · intro w
    rw [hw w]
    constructor
    · rintro (h | h | h)
      · exact Or.inl h
      · exact Or.inr (by omega)
      · exact Or.inr (by omega)
    · rintro (h | h)
      · exact Or.inl h
      · exact Or.inr (Or.inl (by omega))

/-- A call of `uart_getline` waits forever exactly on an input that ends,
without a line feed, before its 256th byte. -/
theorem uart_getline_none_iff (u : Uart) (b : Buffer) :
    uart_getline u b = none ↔
      ((∀ c ∈ received u.polls, c ≠ 10) ∧ (received u.polls).length ≤ 255) := by
  constructor
  · intro hnone
    rcases first_lf_cases (received u.polls) with ⟨k, hk, hno⟩ | hno
    · exfalso
      by_cases hk2 : k ≤ 255
      · obtain ⟨b1, u1, hrun, _⟩ := uart_getline_of_lf u b k hk2 hk hno
        rw [hrun] at hnone
        exact Option.noConfusion hnone
      · have hlen : k < (received u.polls).length := by
          by_contra hc
          rw [List.getElem?_eq_none (by omega)] at hk
          exact Option.noConfusion hk
        obtain ⟨b1, u1, hrun, _⟩ := uart_getline_of_full u b (by omega)
          (fun j hj => hno j (by omega))
        rw [hrun] at hnone
        exact Option.noConfusion hnone
    · refine ⟨hno, ?_⟩
      by_contra hc
      obtain ⟨b1, u1, hrun, _⟩ := uart_getline_of_full u b (by omega)
        (fun j _ => getElem?_ne_of_forall_ne _ hno j)
      rw [hrun] at hnone
      exact Option.noConfusion hnone
  · rintro ⟨hno, hlen⟩
    exact uart_getline_loop_blocks _ u b 0 hno (by omega)

/-! ## uart_getline at the end of the buffer: claims -/

/-- C16: when the first 255 bytes of the input hold no line feed,
`uart_getline` does not stop at index 254, the last cell of the array: it
waits for a 256th byte and stores it in cell 255, one cell behind the array,
and only then the capacity check fires (NUL into cell 254) or, when that byte
is a line feed, NUL is written into cell 256. -/
theorem uart_getline_overruns (u : Uart) (b : Buffer)
    (hno : ∀ j, j < 255 → (received u.polls)[j]? ≠ some 10) :
    ((received u.polls).length = 255 → uart_getline u b = none) ∧
    (256 ≤ (received u.polls).length →
      ∃ b1 u1 c, uart_getline u b = some (b1, u1) ∧ (received u.polls)[255]? = some c ∧
        b1.cell 255 = c ∧ 255 ∈ b1.writes ∧ ¬ (255 < MAX_LINE_SIZE) ∧
        received u1.polls = (received u.polls).drop 256 ∧
        (c ≠ 10 → b1.cell 254 = 0 ∧ ∃ rest, b1.writes = 254 :: 255 :: rest) ∧
        (c = 10 → b1.cell 256 = 0 ∧ ∃ rest, b1.writes = 256 :: 255 :: rest)) := by
  constructor
  · intro h255
    rw [uart_getline_none_iff]
    refine ⟨?_, by omega⟩
    intro c hc
    obtain ⟨j, hj⟩ := List.mem_iff_getElem?.mp hc
    have hjlt : j < 255 := by
      by_contra hge
      rw [List.getElem?_eq_none (by omega)] at hj
      exact Option.noConfusion hj
    intro h10
    rw [h10] at hj
    exact hno j hjlt hj
  · intro h256
    obtain ⟨c, hc⟩ : ∃ c, (received u.polls)[255]? = some c :=
      ⟨(received u.polls)[255], List.getElem?_eq_getElem (by omega)⟩
    have hmax : ¬ (255 < MAX_LINE_SIZE) := by unfold MAX_LINE_SIZE; omega
    by_cases h10 : c = 10
    · obtain ⟨b1, u1, hrun, hrest, hcells, hnul, hw, hord⟩ :=
        uart_getline_of_lf u b 255 (by omega) (by rw [hc, h10]) hno
      have hcell : b1.cell 255 = c := by
        have h := hcells 255 (by omega)
        rw [hc] at h
        exact (Option.some.inj h).symm
      exact ⟨b1, u1, c, hrun, hc, hcell, (hw 255).mpr (Or.inr (by omega)), hmax, hrest,
        fun hne => absurd h10 hne, fun _ => ⟨hnul, hord⟩⟩
    · have hno2 : ∀ j, j < 256 → (received u.polls)[j]? ≠ some 10 := by
        intro j hj
        by_cases hj2 : j < 255
        · exact hno j hj2
        · have hj3 : j = 255 := by omega
          rw [hj3, hc]
          intro h
          exact h10 (Option.some.inj h)
      obtain ⟨b1, u1, hrun, hrest, hcells, hnul, hw, hord⟩ := uart_getline_of_full u b h256 hno2
      have hcell : b1.cell 255 = c := by
        have h := hcells 255 (by omega) (by omega)
        rw [hc] at h
        exact (Option.some.inj h).symm
      exact ⟨b1, u1, c, hrun, hc, hcell, (hw 255).mpr (Or.inr (by omega)), hmax, hrest,
        fun _ => ⟨hnul, hord⟩, fun h => absurd h h10⟩

theorem received_replicate_then (n a c : Nat) (ha : a < 256) (hc : c < 256) :
    received (List.replicate n (⟨32, a⟩ : Poll) ++ [⟨32, c⟩]) = List.replicate n a ++ [c] := by
  have hready : check_bit (⟨32, c⟩ : Poll).stat 5 ≠ 0 := by
    show check_bit 32 5 ≠ 0
    decide
  have hlast : received [(⟨32, c⟩ : Poll)] = [c] := by
    rw [received_cons_ready _ _ hready]
    show [c % 256] = [c]
    rw [Nat.mod_eq_of_lt hc]
  rw [received_replicate n a ha [⟨32, c⟩], hlast]

theorem received_255_then (c : Nat) (hc : c < 256) :
    received (List.replicate 255 (⟨32, 97⟩ : Poll) ++ [⟨32, c⟩]) = List.replicate 255 97 ++ [c] :=
  received_replicate_then 255 97 c (by decide) hc

theorem uart_getline_overruns_witness :
    ∃ b1 u1 c, uart_getline { polls := List.replicate 255 ⟨32, 97⟩ ++ [⟨32, 98⟩], sent := [] }
        Buffer.zeroed = some (b1, u1) ∧
      (received (List.replicate 255 (⟨32, 97⟩ : Poll) ++ [⟨32, 98⟩]))[255]? = some c ∧
      b1.cell 255 = c ∧ 255 ∈ b1.writes ∧ ¬ (255 < MAX_LINE_SIZE) ∧
      received u1.polls = (received (List.replicate 255 (⟨32, 97⟩ : Poll) ++ [⟨32, 98⟩])).drop 256 ∧
      (c ≠ 10 → b1.cell 254 = 0 ∧ ∃ rest, b1.writes = 254 :: 255 :: rest) ∧
      (c = 10 → b1.cell 256 = 0 ∧ ∃ rest, b1.writes = 256 :: 255 :: rest) :=
  (uart_getline_overruns { polls := List.replicate 255 ⟨32, 97⟩ ++ [⟨32, 98⟩], sent := [] }
    Buffer.zeroed
    (by
      intro j hj
      dsimp only
      rw [received_255_then 98 (by decide), replicate_append_getElem?_lt 255 97 98 j hj]
      decide)).2
    (by
      dsimp only
      rw [received_255_then 98 (by decide), List.length_append, List.length_replicate]
      exact Nat.le_refl _)

/-- C17: `uart_getline` consumes at most 256 bytes: exactly k + 1 when the first
line feed is at offset k <= 255, exactly 256 when the first 256 bytes hold no
line feed; it returns in both cases, and only an input that ends before
either happens keeps it waiting. The largest index it ever writes is 256, the
NUL behind a line feed received at offset 255. -/
theorem uart_getline_bounded (u : Uart) (b : Buffer) :
    (∀ k, k ≤ 255 → (received u.polls)[k]? = some 10 →
      (∀ j, j < k → (received u.polls)[j]? ≠ some 10) →
      ∃ b1 u1, uart_getline u b = some (b1, u1) ∧
        received u1.polls = (received u.polls).drop (k + 1) ∧
        (∀ w, w ∈ b1.writes ↔ (w ∈ b.writes ∨ w ≤ k + 1))) ∧
    (256 ≤ (received u.polls).length → (∀ j, j < 256 → (received u.polls)[j]? ≠ some 10) →
      ∃ b1 u1, uart_getline u b = some (b1, u1) ∧
        received u1.polls = (received u.polls).drop 256 ∧
        (∀ w, w ∈ b1.writes ↔ (w ∈ b.writes ∨ w ≤ 255))) ∧
    (∀ b1 u1, uart_getline u b = some (b1, u1) →
      ∃ n, n ≤ 256 ∧ n ≤ (received u.polls).length ∧
        received u1.polls = (received u.polls).drop n ∧
        ∀ w, w ∈ b1.writes → w ∈ b.writes ∨ w ≤ 256) ∧
    (uart_getline u b = none ↔
      ((∀ c ∈ received u.polls, c ≠ 10) ∧ (received u.polls).length ≤ 255)) := by
  refine ⟨?_, ?_, ?_, uart_getline_none_iff u b⟩
  · intro k hk hlf hno
    obtain ⟨b1, u1, hrun, hrest, _, _, hw, _⟩ := uart_getline_of_lf u b k hk hlf hno
    exact ⟨b1, u1, hrun, hrest, hw⟩
  · intro hlen hno
    obtain ⟨b1, u1, hrun, hrest, _, _, hw, _⟩ := uart_getline_of_full u b hlen hno
    exact ⟨b1, u1, hrun, hrest, hw⟩
  · intro b1 u1 hrun
    have hfull : 256 ≤ (received u.polls).length →
        (∀ j, j < 256 → (received u.polls)[j]? ≠ some 10) →
        ∃ n, n ≤ 256 ∧ n ≤ (received u.polls).length ∧
          received u1.polls = (received u.polls).drop n ∧
          ∀ w, w ∈ b1.writes → w ∈ b.writes ∨ w ≤ 256 := by
      intro hlen hno
      obtain ⟨b2, u2, hrun2, hrest, _, _, hw, _⟩ := uart_getline_of_full u b hlen hno
      rw [hrun] at hrun2
      obtain ⟨rfl, rfl⟩ := Prod.mk.inj (Option.some.inj hrun2)
      refine ⟨256, Nat.le_refl _, hlen, hrest, ?_⟩
      intro w hw1
      rcases (hw w).mp hw1 with h | h
      · exact Or.inl h
      · exact Or.inr (by omega)
    rcases first_lf_cases (received u.polls) with ⟨k, hk, hno⟩ | hno
    · have hklen : k < (received u.polls).length := by
        by_contra hc
        rw [List.getElem?_eq_none (by omega)] at hk
        exact Option.noConfusion hk
      by_cases hk2 : k ≤ 255
      · obtain ⟨b2, u2, hrun2, hrest, _, _, hw, _⟩ := uart_getline_of_lf u b k hk2 hk hno
        rw [hrun] at hrun2
        obtain ⟨rfl, rfl⟩ := Prod.mk.inj (Option.some.inj hrun2)
        refine ⟨k + 1, by omega, by omega, hrest, ?_⟩
        intro w hw1
        rcases (hw w).mp hw1 with h | h
        · exact Or.inl h
        · exact Or.inr (by omega)
      · exact hfull (by omega) (fun j hj => hno j (by omega))
    · by_cases hlen : 256 ≤ (received u.polls).length
      · exact hfull hlen (fun j _ => getElem?_ne_of_forall_ne _ hno j)
      · have hnone := (uart_getline_none_iff u b).mpr ⟨hno, by omega⟩
        rw [hnone] at hrun
        exact Option.noConfusion hrun

theorem uart_getline_bounded_witness :
    ∃ b1 u1, uart_getline { polls := List.replicate 255 ⟨32, 97⟩ ++ [⟨32, 10⟩], sent := [] }
        Buffer.zeroed = some (b1, u1) ∧
      received u1.polls
        = (received (List.replicate 255 (⟨32, 97⟩ : Poll) ++ [⟨32, 10⟩])).drop (255 + 1) ∧
      (∀ w, w ∈ b1.writes ↔ (w ∈ Buffer.zeroed.writes ∨ w ≤ 255 + 1)) :=
  (uart_getline_bounded { polls := List.replicate 255 ⟨32, 97⟩ ++ [⟨32, 10⟩], sent := [] }
    Buffer.zeroed).1 255 (Nat.le_refl _)
    (by
      dsimp only
      rw [received_255_then 10 (by decide)]
      exact replicate_append_getElem?_last 255 97 10)
    (by
      intro j hj
      dsimp only
      rw [received_255_then 10 (by decide), replicate_append_getElem?_lt 255 97 10 j hj]
      decide)

/-! ## The accesses of itoa: lemmas -/

theorem itoa_digits_log : ∀ (fuel n1 : Nat) (b : Buffer) (i : Nat) (b1 : Buffer) (i1 : Nat),
    itoa_digits fuel n1 b i = some (b1, i1) →
      i ≤ i1 ∧ b1.reads = b.reads ∧
        ∀ w, w ∈ b1.writes ↔ (w ∈ b.writes ∨ (i ≤ w ∧ w < i1)) := by
  intro fuel
  induction fuel with
  | zero =>
    intro n1 b i b1 i1 h
    rw [itoa_digits] at h
    split at h
    · exact Option.noConfusion h
    · obtain ⟨rfl, rfl⟩ := Prod.mk.inj (Option.some.inj h)
      refine ⟨Nat.le_refl _, rfl, fun w => ?_⟩
      constructor
      · exact fun hw => Or.inl hw
      · rintro (hw | hw)
        · exact hw
        · omega
  | succ fuel ih =>
    intro n1 b i b1 i1 h
    rw [itoa_digits] at h
    split at h
    · obtain ⟨hle, hr, hw⟩ := ih _ _ _ _ _ h
      refine ⟨by omega, hr, fun w => ?_⟩
      rw [hw w]
      simp only [Buffer.store, List.mem_cons]
      by_cases hm : w ∈ b.writes
      · simp [hm]
      · simp only [hm, or_false, false_or]
        omega
    · obtain ⟨rfl, rfl⟩ := Prod.mk.inj (Option.some.inj h)
      refine ⟨Nat.le_refl _, rfl, fun w => ?_⟩
      constructor
      · exact fun hw => Or.inl hw
      · rintro (hw | hw)
        · exact hw
        · omega

theorem itoa_reverse_log (i : Nat) : ∀ (fuel t : Nat) (b b4 : Buffer),
    itoa_reverse i fuel t b = some b4 →
      (∀ w, w ∈ b.writes → w ∈ b4.writes) ∧ (∀ w, w ∈ b4.writes → w ∈ b.writes ∨ w < i) ∧
        (∀ r, r ∈ b4.reads → r ∈ b.reads ∨ r < i) := by
  intro fuel
  induction fuel with
  | zero =>
    intro t b b4 h
    rw [itoa_reverse] at h
    split at h
    · exact Option.noConfusion h
    · have e := Option.some.inj h
      subst e
      exact ⟨fun w hw => hw, fun w hw => Or.inl hw, fun r hr => Or.inl hr⟩
  | succ fuel ih =>
    intro t b b4 h
    rw [itoa_reverse] at h
    split at h
    · rename_i hg
      obtain ⟨h1, h2, h3⟩ := ih _ _ _ h
      refine ⟨?_, ?_, ?_⟩
      · intro w hw
        apply h1
        simp only [Buffer.xorAssign, List.mem_cons]
        exact Or.inr (Or.inr (Or.inr hw))
      · intro w hw
        rcases h2 w hw with hw2 | hw2
        · simp only [Buffer.xorAssign, List.mem_cons] at hw2
          rcases hw2 with hw2 | hw2 | hw2 | hw2
          · right; omega
          · right; omega
          · right; omega
          · left; exact hw2
        · right; exact hw2
      · intro r hr
        rcases h3 r hr with hr2 | hr2
        · simp only [Buffer.xorAssign, List.mem_cons] at hr2
          rcases hr2 with hr2 | hr2 | hr2 | hr2 | hr2 | hr2 | hr2
          · right; omega
          · right; omega
          · right; omega
          · right; omega
          · right; omega
          · right; omega
          · left; exact hr2
        · right; exact hr2
    · have e := Option.some.inj h
      subst e
      exact ⟨fun w hw => hw, fun w hw => Or.inl hw, fun r hr => Or.inl hr⟩

theorem digits_length_eq_ten_iff (m : Nat) (hm : m < 10 ^ 10) :
    (Nat.digits 10 m).length = 10 ↔ 1000000000 ≤ m := by
  have hup := Nat.lt_base_pow_length_digits (b := 10) (m := m) (by norm_num)
  constructor
  · intro h
    have hm0 : m ≠ 0 := by
      rintro rfl
      simp at h
    have hlow := Nat.base_pow_length_digits_le 10 m (by norm_num) hm0
    rw [h] at hlow
    norm_num at hlow
    omega
  · intro h
    have hle : (Nat.digits 10 m).length ≤ 10 := by
      by_contra hc
      have hm0 : m ≠ 0 := by omega
      have hlow := Nat.base_pow_length_digits_le 10 m (by norm_num) hm0
      have h2 : 10 ^ 11 ≤ 10 ^ (Nat.digits 10 m).length :=
        Nat.pow_le_pow_right (by norm_num) (by omega)
      norm_num at hm h2
      omega
    by_contra hne
    have h2 : 10 ^ (Nat.digits 10 m).length ≤ 10 ^ 9 :=
      Nat.pow_le_pow_right (by norm_num) (by omega)
    norm_num at h2
    omega

theorem decimalText_length (n : Int) :
    (decimalText n).length =
      if n = 0 then 1 else (if n < 0 then 1 else 0) + (Nat.digits 10 n.natAbs).length := by
  by_cases h0 : n = 0
  · subst h0; rfl
  · by_cases hneg : n < 0
    · simp [decimalText, h0, hneg]; omega
    · simp [decimalText, h0, hneg]

/-- The cells `itoa` writes are exactly those of the text and its NUL, and the
cells it reads are cells of the text. -/
theorem itoa_log (n : Int) (b : Buffer) (hlo : -2147483648 ≤ n) (hhi : n ≤ 2147483647) :
    ∃ b4, itoa n b = some b4 ∧
      (∀ w, w ∈ b4.writes ↔ (w ∈ b.writes ∨ w ≤ (decimalText n).length)) ∧
      (∀ r, r ∈ b4.reads → r ∈ b.reads ∨ r < (decimalText n).length) := by
  obtain ⟨b4, hitoa, _, _⟩ := itoa_spec n b hlo hhi
  refine ⟨b4, hitoa, ?_⟩
  have hmag := itoa_magnitude n hlo hhi
  have hlt : n.natAbs < 10 ^ 10 := by norm_num; omega
  obtain ⟨b1, hrun, _, _⟩ := itoa_digits_spec 10 n.natAbs b 0 hlt
  simp only [Nat.zero_add] at hrun
  obtain ⟨_, hr1, hw1⟩ := itoa_digits_log _ _ _ _ _ _ hrun
  have hL := decimalText_length n
  by_cases hneg : n < 0
  · have hn0 : n ≠ 0 := by omega
    simp only [hneg, if_true] at hmag
    rw [if_neg hn0, if_pos hneg] at hL
    simp only [itoa, hneg, decide_True, if_true, hmag, hrun, hn0, if_false] at hitoa
    cases hrev : itoa_reverse ((Nat.digits 10 n.natAbs).length + 1)
        (((Nat.digits 10 n.natAbs).length + 1) / 2) 0
        ((b1.store (Nat.digits 10 n.natAbs).length 45).store
          ((Nat.digits 10 n.natAbs).length + 1) 0) with
    | none => rw [hrev] at hitoa; exact Option.noConfusion hitoa
    | some b5 =>
      rw [hrev] at hitoa
      have e : b5 = b4 := Option.some.inj hitoa
      subst e
      obtain ⟨h1, h2, h3⟩ := itoa_reverse_log _ _ _ _ _ hrev
      constructor
      · intro w
        constructor
        · intro hw
          rcases h2 w hw with hw2 | hw2
          · simp only [Buffer.store, List.mem_cons] at hw2
            rcases hw2 with hw2 | hw2 | hw2
            · right; omega
            · right; omega
            · rcases (hw1 w).mp hw2 with hw3 | hw3
              · left; exact hw3
              · right; omega
          · right; omega
        · intro hw
          apply h1
          simp only [Buffer.store, List.mem_cons]
          rw [hw1 w]
          rcases hw with hw | hw
          · exact Or.inr (Or.inr (Or.inl hw))
          · by_cases h4 : w = (Nat.digits 10 n.natAbs).length + 1
            · exact Or.inl h4
            · by_cases h5 : w = (Nat.digits 10 n.natAbs).length
              · exact Or.inr (Or.inl h5)
              · exact Or.inr (Or.inr (Or.inr (by omega)))
      · intro r hr
        rcases h3 r hr with hr2 | hr2
        · left
          simp only [Buffer.store] at hr2
          rw [hr1] at hr2
          exact hr2
        · right; omega
  · simp only [hneg, if_false] at hmag
    simp only [itoa, hneg, decide_False, Bool.false_eq_true, if_false, hmag, hrun] at hitoa
    cases hrev : itoa_reverse (Nat.digits 10 n.natAbs).length
        ((Nat.digits 10 n.natAbs).length / 2) 0
        (b1.store (Nat.digits 10 n.natAbs).length 0) with
    | none => rw [hrev] at hitoa; exact Option.noConfusion hitoa
    | some b5 =>
      rw [hrev] at hitoa
      obtain ⟨h1, h2, h3⟩ := itoa_reverse_log _ _ _ _ _ hrev
      have hw5 : ∀ w, w ∈ b5.writes ↔ (w ∈ b.writes ∨ w ≤ (Nat.digits 10 n.natAbs).length) := by
        intro w
        constructor
        · intro hw
          rcases h2 w hw with hw2 | hw2
          · simp only [Buffer.store, List.mem_cons] at hw2
            rcases hw2 with hw2 | hw2
            · right; omega
            · rcases (hw1 w).mp hw2 with hw3 | hw3
              · left; exact hw3
              · right; omega
          · right; omega
        · intro hw
          apply h1
          simp only [Buffer.store, List.mem_cons]
          rw [hw1 w]
          rcases hw with hw | hw
          · exact Or.inr (Or.inl hw)
          · by_cases h5 : w = (Nat.digits 10 n.natAbs).length
            · exact Or.inl h5
            · exact Or.inr (Or.inr (by omega))
      have hr5 : ∀ r, r ∈ b5.reads → r ∈ b.reads ∨ r < (Nat.digits 10 n.natAbs).length := by
        intro r hr
        rcases h3 r hr with hr2 | hr2
        · left
          simp only [Buffer.store] at hr2
          rw [hr1] at hr2
          exact hr2
        · right; exact hr2
      by_cases hn0 : n = 0
      · subst hn0
        have hd0 : (Nat.digits 10 (0 : Int).natAbs).length = 0 := by simp
        rw [hd0] at hw5 hr5
        simp only [if_true] at hitoa hL
        have e : (b5.store 0 48).store 1 0 = b4 := Option.some.inj hitoa
        subst e
        rw [hL]
        constructor
        · intro w
          simp only [Buffer.store, List.mem_cons]
          rw [hw5 w]
          by_cases hm : w ∈ b.writes
          · simp [hm]
          · simp only [hm, false_or]
            omega
        · intro r hr
          simp only [Buffer.store] at hr
          rcases hr5 r hr with h | h
          · exact Or.inl h
          · omega
      · simp only [hn0, if_false] at hitoa
        rw [if_neg hn0, if_neg hneg, Nat.zero_add] at hL
        have e : b5 = b4 := Option.some.inj hitoa
        subst e
        rw [hL]
        exact ⟨hw5, hr5⟩

/-! ## The accesses of itoa: claim -/

/-- C19: for every signed 32-bit n, `itoa n` writes the cells 0..len of its
buffer, where len is the length of the decimal text, and reads only cells
below len: at most 12 cells (10 digits, "-", NUL), all with an index of at most
11, inside the 255-cell array. It writes 12 cells exactly when n is negative
with 10 digits. -/
theorem itoa_stays_inside (n : Int) (b : Buffer) (hlo : -2147483648 ≤ n)
    (hhi : n ≤ 2147483647) :
    ∃ b4, itoa n b = some b4 ∧
      (∀ w, w ∈ b4.writes ↔ (w ∈ b.writes ∨ w ≤ (decimalText n).length)) ∧
      (∀ r, r ∈ b4.reads → r ∈ b.reads ∨ r < (decimalText n).length) ∧
      (Nat.digits 10 n.natAbs).length ≤ 10 ∧
      (decimalText n).length + 1 ≤ 12 ∧ (decimalText n).length < MAX_LINE_SIZE ∧
      ((decimalText n).length + 1 = 12 ↔ n ≤ -1000000000) ∧
      (b.writes = [] → b4.writes.toFinset.card = (decimalText n).length + 1) := by
  obtain ⟨b4, hitoa, hw, hr⟩ := itoa_log n b hlo hhi
  have hlen := decimalText_length_le n hlo hhi
  have hL := decimalText_length n
  have hlt : n.natAbs < 10 ^ 10 := by norm_num; omega
  have hten := digits_length_eq_ten_iff n.natAbs hlt
  have hdig : (Nat.digits 10 n.natAbs).length ≤ 10 := by
    by_cases h0 : n = 0
    · subst h0; simp
    · rw [if_neg h0] at hL
      by_contra hc
      have h11 : (Nat.digits 10 n.natAbs).length = 11 := by
        split at hL <;> omega
      have hup := Nat.base_pow_length_digits_le 10 n.natAbs (by norm_num) (by omega)
      rw [h11] at hup
      norm_num at hup
      omega
  refine ⟨b4, hitoa, hw, hr, hdig, by omega, by unfold MAX_LINE_SIZE; omega, ?_, ?_⟩
  · by_cases h0 : n = 0
    · subst h0
      rw [if_pos rfl] at hL
      constructor
      · intro h; omega
      · intro h; omega
    · rw [if_neg h0] at hL
      by_cases hneg : n < 0
      · rw [if_pos hneg] at hL
        constructor
        · intro h
          have := hten.mp (by omega)
          omega
        · intro h
          have := hten.mpr (by omega)
          omega
      · rw [if_neg hneg] at hL
        constructor
        · intro h; omega
        · intro h; omega
  · intro hb
    have hset : b4.writes.toFinset = Finset.range ((decimalText n).length + 1) := by
      ext w
      rw [List.mem_toFinset, hw w, hb, Finset.mem_range]
      simp only [List.not_mem_nil, false_or]
      omega
    rw [hset, Finset.card_range]

theorem itoa_stays_inside_witness :
    ∃ b4, itoa (-2147483648) Buffer.zeroed = some b4 ∧
      (∀ w, w ∈ b4.writes ↔ (w ∈ Buffer.zeroed.writes ∨ w ≤ (decimalText (-2147483648)).length)) ∧
      (∀ r, r ∈ b4.reads → r ∈ Buffer.zeroed.reads ∨ r < (decimalText (-2147483648)).length) ∧
      (Nat.digits 10 (-2147483648 : Int).natAbs).length ≤ 10 ∧
      (decimalText (-2147483648)).length + 1 ≤ 12 ∧
      (decimalText (-2147483648)).length < MAX_LINE_SIZE ∧
      ((decimalText (-2147483648)).length + 1 = 12 ↔ (-2147483648 : Int) ≤ -1000000000) ∧
      (Buffer.zeroed.writes = [] →
        b4.writes.toFinset.card = (decimalText (-2147483648)).length + 1) :=
  itoa_stays_inside (-2147483648) Buffer.zeroed (by decide) (by decide)

/-! ## The toggle loop: lemmas -/

theorem testBit_or_set (x mask i : Nat) (h : mask.testBit i = true) :
    (x ||| mask).testBit i = true := by
  rw [Nat.testBit_or, h, Bool.or_true]

theorem testBit_or_keep (x mask i : Nat) (h : mask.testBit i = false) :
    (x ||| mask).testBit i = x.testBit i := by
  rw [Nat.testBit_or, h, Bool.or_false]

theorem testBit_and_clear (x mask i : Nat) (h : mask.testBit i = false) :
    (x &&& mask).testBit i = false := by
  rw [Nat.testBit_and, h, Bool.and_false]

theorem testBit_and_keep (x mask i : Nat) (h : mask.testBit i = true) :
    (x &&& mask).testBit i = x.testBit i := by
  rw [Nat.testBit_and, h, Bool.and_true]

theorem lnot_lnot (x : Int) (h : x = 0 ∨ x = 1) : lnot (lnot x) = x := by
  rcases h with rfl | rfl <;> decide

theorem lnot_flag (x : Int) : lnot x = 0 ∨ lnot x = 1 := by
  unfold lnot
  split
  · exact Or.inl rfl
  · exact Or.inr rfl

/-- What follows from a cycle that ends with sending `text` and then moves to
the state `f u2`. -/
theorem sendText_map_some (text : List Nat) (u1 : Uart) (f : Uart → LedMachine) :
    (text.length ≤ txReady u1.polls → ∃ m1, (sendText text u1).map f = some m1) ∧
    ∀ m1, (sendText text u1).map f = some m1 →
      ∃ u2, m1 = f u2 ∧ u2.sent = u1.sent ++ text ∧ text.length ≤ txReady u1.polls := by
  unfold sendText
  by_cases h : text.length ≤ txReady u1.polls
  · rw [if_pos h]
    refine ⟨fun _ => ⟨_, rfl⟩, ?_⟩
    intro m1 hm
    exact ⟨_, (Option.some.inj hm).symm, rfl, h⟩
  · rw [if_neg h]
    refine ⟨fun h2 => absurd h2 h, ?_⟩
    intro m1 hm
    exact Option.noConfusion hm

theorem led_cycle_red (m : LedMachine) (g : Buffer) (u1 : Uart)
    (hget : uart_getline m.uart m.getline_buffer = some (g, u1)) (h : g.cell 0 = 49) :
    led_cycle m = (sendText (cstr toggling_red) u1).map (fun u2 =>
      { m with
        uart := u2
        getline_buffer := g
        gpioc_odr :=
          if m.red ≠ 0 then m.gpioc_odr ||| (1 <<< 13) else m.gpioc_odr &&& not32 (1 <<< 13)
        odr_writes := (GpioPort.C,
          if m.red ≠ 0 then m.gpioc_odr ||| (1 <<< 13) else m.gpioc_odr &&& not32 (1 <<< 13))
            :: m.odr_writes
        red := lnot m.red }) := by
  simp only [led_cycle, hget, h, if_true, uart_send_eq_sendText]
  cases sendText (cstr toggling_red) u1 <;> rfl

theorem led_cycle_green (m : LedMachine) (g : Buffer) (u1 : Uart)
    (hget : uart_getline m.uart m.getline_buffer = some (g, u1)) (h : g.cell 0 = 50) :
    led_cycle m = (sendText (cstr toggling_green) u1).map (fun u2 =>
      { m with
        uart := u2
        getline_buffer := g
        gpioa_odr :=
          if m.green ≠ 0 then m.gpioa_odr ||| (1 <<< 1) else m.gpioa_odr &&& not32 (1 <<< 1)
        odr_writes := (GpioPort.A,
          if m.green ≠ 0 then m.gpioa_odr ||| (1 <<< 1) else m.gpioa_odr &&& not32 (1 <<< 1))
            :: m.odr_writes
        green := lnot m.green }) := by
  have h1 : ¬ (g.cell 0 = 49) := by omega
  simp only [led_cycle, hget, h, h1, if_true, if_false, uart_send_eq_sendText]
  cases sendText (cstr toggling_green) u1 <;> rfl

theorem led_cycle_blue (m : LedMachine) (g : Buffer) (u1 : Uart)
    (hget : uart_getline m.uart m.getline_buffer = some (g, u1)) (h : g.cell 0 = 51) :
    led_cycle m = (sendText (cstr toggling_blue) u1).map (fun u2 =>
      { m with
        uart := u2
        getline_buffer := g
        gpioa_odr :=
          if m.blue ≠ 0 then m.gpioa_odr ||| (1 <<< 2) else m.gpioa_odr &&& not32 (1 <<< 2)
        odr_writes := (GpioPort.A,
          if m.blue ≠ 0 then m.gpioa_odr ||| (1 <<< 2) else m.gpioa_odr &&& not32 (1 <<< 2))
            :: m.odr_writes
        blue := lnot m.blue }) := by
  have h1 : ¬ (g.cell 0 = 49) := by omega
  have h2 : ¬ (g.cell 0 = 50) := by omega
  simp only [led_cycle, hget, h, h1, h2, if_true, if_false, uart_send_eq_sendText]
  cases sendText (cstr toggling_blue) u1 <;> rfl

theorem led_cycle_wrong (m : LedMachine) (g : Buffer) (u1 : Uart)
    (hget : uart_getline m.uart m.getline_buffer = some (g, u1))
    (h1 : g.cell 0 ≠ 49) (h2 : g.cell 0 ≠ 50) (h3 : g.cell 0 ≠ 51) :
    led_cycle m = (sendText (cstr wrong_input) u1).map (fun u2 =>
      { m with uart := u2, getline_buffer := g }) := by
  simp only [led_cycle, hget, h1, h2, h3, if_false, uart_send_eq_sendText]
  cases sendText (cstr wrong_input) u1 <;> rfl

/-- A cycle that completes has assembled the line it leaves in the buffer. -/
theorem led_cycle_getline (m m1 : LedMachine) (h : led_cycle m = some m1) :
    ∃ u1, uart_getline m.uart m.getline_buffer = some (m1.getline_buffer, u1) := by
  cases hget : uart_getline m.uart m.getline_buffer with
  | none => simp [led_cycle, hget] at h
  | some r =>
    obtain ⟨g, u1⟩ := r
    refine ⟨u1, ?_⟩
    by_cases h1 : g.cell 0 = 49
    · rw [led_cycle_red m g u1 hget h1] at h
      obtain ⟨u2, hm, _⟩ := (sendText_map_some _ _ _).2 m1 h
      rw [hm]
    · by_cases h2 : g.cell 0 = 50
      · rw [led_cycle_green m g u1 hget h2] at h
        obtain ⟨u2, hm, _⟩ := (sendText_map_some _ _ _).2 m1 h
        rw [hm]
      · by_cases h3 : g.cell 0 = 51
        · rw [led_cycle_blue m g u1 hget h3] at h
          obtain ⟨u2, hm, _⟩ := (sendText_map_some _ _ _).2 m1 h
          rw [hm]
        · rw [led_cycle_wrong m g u1 hget h1 h2 h3] at h
          obtain ⟨u2, hm, _⟩ := (sendText_map_some _ _ _).2 m1 h
          rw [hm]

theorem cstr_toggling_red : cstr toggling_red =
    [84, 111, 103, 103, 108, 105, 110, 103, 32, 82, 69, 68, 46, 46, 46, 10] := by decide

theorem cstr_toggling_green : cstr toggling_green =
    [84, 111, 103, 103, 108, 105, 110, 103, 32, 71, 82, 69, 69, 78, 46, 46, 46, 10] := by decide

theorem cstr_toggling_blue : cstr toggling_blue =
    [84, 111, 103, 103, 108, 105, 110, 103, 32, 66, 76, 85, 69, 46, 46, 46, 10] := by decide

theorem cstr_wrong_input : cstr wrong_input =
    [87, 114, 111, 110, 103, 32, 105, 110, 112, 117, 116, 46, 10] := by decide

/-! ## The toggle loop: claims -/

/-- C11: in the toggle loop, for every flag state and every assembled line
whose first byte is "1", "2" or "3", one cycle sends exactly
"Toggling RED...\n", "Toggling GREEN...\n" or "Toggling BLUE...\n", negates
the corresponding flag and leaves the other two flags as they were; the line
enters only through its first byte. The cycle completes when `STAT` shows TBE
set once for each byte of the response. -/
theorem led_cycle_toggles (m : LedMachine) (g : Buffer) (u1 : Uart)
    (hget : uart_getline m.uart m.getline_buffer = some (g, u1)) :
    (g.cell 0 = 49 →
      (16 ≤ txReady u1.polls → ∃ m1, led_cycle m = some m1) ∧
      ∀ m1, led_cycle m = some m1 →
        m1.uart.sent = m.uart.sent ++
          [84, 111, 103, 103, 108, 105, 110, 103, 32, 82, 69, 68, 46, 46, 46, 10] ∧
        m1.red = lnot m.red ∧ m1.green = m.green ∧ m1.blue = m.blue ∧
        m1.getline_buffer = g) ∧
    (g.cell 0 = 50 →
      (18 ≤ txReady u1.polls → ∃ m1, led_cycle m = some m1) ∧
      ∀ m1, led_cycle m = some m1 →
        m1.uart.sent = m.uart.sent ++
          [84, 111, 103, 103, 108, 105, 110, 103, 32, 71, 82, 69, 69, 78, 46, 46, 46, 10] ∧
        m1.red = m.red ∧ m1.green = lnot m.green ∧ m1.blue = m.blue ∧
        m1.getline_buffer = g) ∧
    (g.cell 0 = 51 →
      (17 ≤ txReady u1.polls → ∃ m1, led_cycle m = some m1) ∧
      ∀ m1, led_cycle m = some m1 →
        m1.uart.sent = m.uart.sent ++
          [84, 111, 103, 103, 108, 105, 110, 103, 32, 66, 76, 85, 69, 46, 46, 46, 10] ∧
        m1.red = m.red ∧ m1.green = m.green ∧ m1.blue = lnot m.blue ∧
        m1.getline_buffer = g) := by
  have hsent : u1.sent = m.uart.sent := uart_getline_loop_sent _ _ _ _ _ _ hget
  refine ⟨?_, ?_, ?_⟩
  · intro h
    rw [led_cycle_red m g u1 hget h, cstr_toggling_red]
    refine ⟨fun hr => (sendText_map_some _ u1 _).1 hr, ?_⟩
    intro m1 hm
    obtain ⟨u2, rfl, hs, _⟩ := (sendText_map_some _ u1 _).2 m1 hm
    exact ⟨by rw [← hsent]; exact hs, rfl, rfl, rfl, rfl⟩
  · intro h
    rw [led_cycle_green m g u1 hget h, cstr_toggling_green]
    refine ⟨fun hr => (sendText_map_some _ u1 _).1 hr, ?_⟩
    intro m1 hm
    obtain ⟨u2, rfl, hs, _⟩ := (sendText_map_some _ u1 _).2 m1 hm
    exact ⟨by rw [← hsent]; exact hs, rfl, rfl, rfl, rfl⟩
  · intro h
    rw [led_cycle_blue m g u1 hget h, cstr_toggling_blue]
    refine ⟨fun hr => (sendText_map_some _ u1 _).1 hr, ?_⟩
    intro m1 hm
    obtain ⟨u2, rfl, hs, _⟩ := (sendText_map_some _ u1 _).2 m1 hm
    exact ⟨by rw [← hsent]; exact hs, rfl, rfl, rfl, rfl⟩

/-- C12: in the toggle loop, for every flag state and every assembled line
whose first byte is none of "1", "2", "3", one cycle sends exactly
"Wrong input.\n" and leaves the three flags and both output data registers
as they were, without a write to either register. -/
theorem led_cycle_rejects (m : LedMachine) (g : Buffer) (u1 : Uart)
    (hget : uart_getline m.uart m.getline_buffer = some (g, u1))
    (h1 : g.cell 0 ≠ 49) (h2 : g.cell 0 ≠ 50) (h3 : g.cell 0 ≠ 51) :
    (13 ≤ txReady u1.polls → ∃ m1, led_cycle m = some m1) ∧
    ∀ m1, led_cycle m = some m1 →
      m1.uart.sent = m.uart.sent ++
        [87, 114, 111, 110, 103, 32, 105, 110, 112, 117, 116, 46, 10] ∧
      m1.red = m.red ∧ m1.green = m.green ∧ m1.blue = m.blue ∧
      m1.gpioa_odr = m.gpioa_odr ∧ m1.gpioc_odr = m.gpioc_odr ∧
      m1.odr_writes = m.odr_writes := by
  have hsent : u1.sent = m.uart.sent := uart_getline_loop_sent _ _ _ _ _ _ hget
  rw [led_cycle_wrong m g u1 hget h1 h2 h3, cstr_wrong_input]
  refine ⟨fun hr => (sendText_map_some _ u1 _).1 hr, ?_⟩
  intro m1 hm
  obtain ⟨u2, rfl, hs, _⟩ := (sendText_map_some _ u1 _).2 m1 hm
  exact ⟨by rw [← hsent]; exact hs, rfl, rfl, rfl, rfl, rfl, rfl⟩

theorem led_cycle_toggles_witness :
    ∃ m1, led_cycle
      { uart := { polls := [⟨32, 49⟩, ⟨32, 97⟩, ⟨32, 10⟩] ++ List.replicate 16 ⟨128, 0⟩, sent := [] }
        getline_buffer := Buffer.zeroed
        red := 0
        green := 1
        blue := 0
        gpioa_odr := 4
        gpioc_odr := 8192
        odr_writes := [] } = some m1 ∧
      m1.uart.sent = [84, 111, 103, 103, 108, 105, 110, 103, 32, 82, 69, 68, 46, 46, 46, 10] ∧
      m1.red = 1 ∧ m1.green = 1 ∧ m1.blue = 0 := by
  have t := (led_cycle_toggles
      { uart := { polls := [⟨32, 49⟩, ⟨32, 97⟩, ⟨32, 10⟩] ++ List.replicate 16 ⟨128, 0⟩, sent := [] }
        getline_buffer := Buffer.zeroed
        red := 0
        green := 1
        blue := 0
        gpioa_odr := 4
        gpioc_odr := 8192
        odr_writes := [] }
      ((((Buffer.zeroed.store 0 49).store 1 97).store 2 10).store 3 0)
      { polls := List.replicate 16 ⟨128, 0⟩, sent := [] } rfl).1 rfl
  obtain ⟨m1, hm⟩ := t.1 (by decide)
  obtain ⟨h1, h2, h3, h4, _⟩ := t.2 m1 hm
  exact ⟨m1, hm, h1, h2, h3, h4⟩

theorem led_cycle_rejects_witness :
    (∃ m1, led_cycle
      { uart := { polls := [⟨32, 120⟩, ⟨32, 10⟩] ++ List.replicate 13 ⟨128, 0⟩, sent := [] }
        getline_buffer := Buffer.zeroed
        red := 0
        green := 1
        blue := 0
        gpioa_odr := 4
        gpioc_odr := 8192
        odr_writes := [] } = some m1 ∧
      m1.uart.sent = [87, 114, 111, 110, 103, 32, 105, 110, 112, 117, 116, 46, 10] ∧
      m1.red = 0 ∧ m1.green = 1 ∧ m1.blue = 0 ∧ m1.gpioa_odr = 4 ∧ m1.gpioc_odr = 8192 ∧
      m1.odr_writes = []) ∧
    (∃ m1, led_cycle
      { uart := { polls := [⟨32, 10⟩] ++ List.replicate 13 ⟨128, 0⟩, sent := [] }
        getline_buffer := Buffer.zeroed
        red := 0
        green := 1
        blue := 0
        gpioa_odr := 4
        gpioc_odr := 8192
        odr_writes := [] } = some m1 ∧
      m1.uart.sent = [87, 114, 111, 110, 103, 32, 105, 110, 112, 117, 116, 46, 10] ∧
      m1.red = 0 ∧ m1.green = 1 ∧ m1.blue = 0 ∧ m1.gpioa_odr = 4 ∧ m1.gpioc_odr = 8192 ∧
      m1.odr_writes = []) := by
  have t := led_cycle_rejects
      { uart := { polls := [⟨32, 120⟩, ⟨32, 10⟩] ++ List.replicate 13 ⟨128, 0⟩, sent := [] }
        getline_buffer := Buffer.zeroed
        red := 0
        green := 1
        blue := 0
        gpioa_odr := 4
        gpioc_odr := 8192
        odr_writes := [] }
      (((Buffer.zeroed.store 0 120).store 1 10).store 2 0)
      { polls := List.replicate 13 ⟨128, 0⟩, sent := [] } rfl (by decide) (by decide) (by decide)
  have e := led_cycle_rejects
      { uart := { polls := [⟨32, 10⟩] ++ List.replicate 13 ⟨128, 0⟩, sent := [] }
        getline_buffer := Buffer.zeroed
        red := 0
        green := 1
        blue := 0
        gpioa_odr := 4
        gpioc_odr := 8192
        odr_writes := [] }
      ((Buffer.zeroed.store 0 10).store 1 0)
      { polls := List.replicate 13 ⟨128, 0⟩, sent := [] } rfl (by decide) (by decide) (by decide)
  obtain ⟨m1, hm⟩ := t.1 (by decide)
  obtain ⟨m2, hm2⟩ := e.1 (by decide)
  exact ⟨⟨m1, hm, t.2 m1 hm⟩, ⟨m2, hm2, e.2 m2 hm2⟩⟩

/-- One cycle on a line that starts with "1": the value written to `GPIOC->ODR`
has bit 13 equal to the old red flag. -/
theorem led_cycle_red_step (m m1 : LedMachine) (h : led_cycle m = some m1)
    (hc : m1.getline_buffer.cell 0 = 49) :
    m1.red = lnot m.red ∧ m1.green = m.green ∧ m1.blue = m.blue ∧
      m1.gpioa_odr = m.gpioa_odr ∧
      m1.odr_writes = (GpioPort.C, m1.gpioc_odr) :: m.odr_writes ∧
      m1.gpioc_odr.testBit 13 = decide (m.red ≠ 0) := by
  obtain ⟨u1, hget⟩ := led_cycle_getline m m1 h
  rw [led_cycle_red m _ u1 hget hc] at h
  obtain ⟨u2, hm, _⟩ := (sendText_map_some _ u1 _).2 m1 h
  have hbit : (if m.red ≠ 0 then m.gpioc_odr ||| (1 <<< 13)
      else m.gpioc_odr &&& not32 (1 <<< 13)).testBit 13 = decide (m.red ≠ 0) := by
    by_cases hr : m.red ≠ 0
    · rw [if_pos hr, testBit_or_set _ _ _ (by decide)]
      simp [hr]
    · rw [if_neg hr, testBit_and_clear _ _ _ (by decide)]
      simp [hr]
  rw [hm]
  exact ⟨rfl, rfl, rfl, rfl, rfl, hbit⟩

/-- One cycle on a line that starts with "2": the value written to `GPIOA->ODR`
has bit 1 equal to the old green flag and bit 2 as before. -/
theorem led_cycle_green_step (m m1 : LedMachine) (h : led_cycle m = some m1)
    (hc : m1.getline_buffer.cell 0 = 50) :
    m1.red = m.red ∧ m1.green = lnot m.green ∧ m1.blue = m.blue ∧
      m1.gpioc_odr = m.gpioc_odr ∧
      m1.odr_writes = (GpioPort.A, m1.gpioa_odr) :: m.odr_writes ∧
      m1.gpioa_odr.testBit 1 = decide (m.green ≠ 0) ∧
      m1.gpioa_odr.testBit 2 = m.gpioa_odr.testBit 2 := by
  obtain ⟨u1, hget⟩ := led_cycle_getline m m1 h
  rw [led_cycle_green m _ u1 hget hc] at h
  obtain ⟨u2, hm, _⟩ := (sendText_map_some _ u1 _).2 m1 h
  have hbit : (if m.green ≠ 0 then m.gpioa_odr ||| (1 <<< 1)
      else m.gpioa_odr &&& not32 (1 <<< 1)).testBit 1 = decide (m.green ≠ 0) := by
    by_cases hr : m.green ≠ 0
    · rw [if_pos hr, testBit_or_set _ _ _ (by decide)]
      simp [hr]
    · rw [if_neg hr, testBit_and_clear _ _ _ (by decide)]
      simp [hr]
  have hkeep : (if m.green ≠ 0 then m.gpioa_odr ||| (1 <<< 1)
      else m.gpioa_odr &&& not32 (1 <<< 1)).testBit 2 = m.gpioa_odr.testBit 2 := by
    by_cases hr : m.green ≠ 0
    · rw [if_pos hr, testBit_or_keep _ _ _ (by decide)]
    · rw [if_neg hr, testBit_and_keep _ _ _ (by decide)]
  rw [hm]
  exact ⟨rfl, rfl, rfl, rfl, rfl, hbit, hkeep⟩

/-- One cycle on a line that starts with "3": the value written to `GPIOA->ODR`
has bit 2 equal to the old blue flag and bit 1 as before. -/
theorem led_cycle_blue_step (m m1 : LedMachine) (h : led_cycle m = some m1)
    (hc : m1.getline_buffer.cell 0 = 51) :
    m1.red = m.red ∧ m1.green = m.green ∧ m1.blue = lnot m.blue ∧
      m1.gpioc_odr = m.gpioc_odr ∧
      m1.odr_writes = (GpioPort.A, m1.gpioa_odr) :: m.odr_writes ∧
      m1.gpioa_odr.testBit 2 = decide (m.blue ≠ 0) ∧
      m1.gpioa_odr.testBit 1 = m.gpioa_odr.testBit 1 := by
  obtain ⟨u1, hget⟩ := led_cycle_getline m m1 h
  rw [led_cycle_blue m _ u1 hget hc] at h
  obtain ⟨u2, hm, _⟩ := (sendText_map_some _ u1 _).2 m1 h
  have hbit : (if m.blue ≠ 0 then m.gpioa_odr ||| (1 <<< 2)
      else m.gpioa_odr &&& not32 (1 <<< 2)).testBit 2 = decide (m.blue ≠ 0) := by
    by_cases hr : m.blue ≠ 0
    · rw [if_pos hr, testBit_or_set _ _ _ (by decide)]
      simp [hr]
    · rw [if_neg hr, testBit_and_clear _ _ _ (by decide)]
      simp [hr]
  have hkeep : (if m.blue ≠ 0 then m.gpioa_odr ||| (1 <<< 2)
      else m.gpioa_odr &&& not32 (1 <<< 2)).testBit 1 = m.gpioa_odr.testBit 1 := by
    by_cases hr : m.blue ≠ 0
    · rw [if_pos hr, testBit_or_keep _ _ _ (by decide)]
    · rw [if_neg hr, testBit_and_keep _ _ _ (by decide)]
  rw [hm]
  exact ⟨rfl, rfl, rfl, rfl, rfl, hbit, hkeep⟩

/-- One cycle on a line that starts with none of "1", "2", "3". -/
theorem led_cycle_wrong_step (m m1 : LedMachine) (h : led_cycle m = some m1)
    (h1 : m1.getline_buffer.cell 0 ≠ 49) (h2 : m1.getline_buffer.cell 0 ≠ 50)
    (h3 : m1.getline_buffer.cell 0 ≠ 51) :
    m1.red = m.red ∧ m1.green = m.green ∧ m1.blue = m.blue ∧
      m1.gpioa_odr = m.gpioa_odr ∧ m1.gpioc_odr = m.gpioc_odr ∧
      m1.odr_writes = m.odr_writes := by
  obtain ⟨u1, hget⟩ := led_cycle_getline m m1 h
  rw [led_cycle_wrong m _ u1 hget h1 h2 h3] at h
  obtain ⟨u2, hm, _⟩ := (sendText_map_some _ u1 _).2 m1 h
  rw [hm]
  exact ⟨rfl, rfl, rfl, rfl, rfl, rfl⟩

theorem decide_lnot_ne (x : Int) : decide (lnot x ≠ 0) = !decide (x ≠ 0) := by
  unfold lnot
  by_cases h : x ≠ 0
  · simp [h]
  · simp [h]

theorem decide_lnot_eq (x : Int) : decide (lnot x = 0) = decide (x ≠ 0) := by
  unfold lnot
  by_cases h : x ≠ 0
  · simp [h]
  · simp [h]

/-- C13: two consecutive cycles of the toggle loop on lines that start with
the same command byte "1", "2" or "3" return the selected flag to its original
value (0 or 1) and leave the other two as they were; the two values written to
the output data register of that LED differ in its bit: bit 13 of `GPIOC->ODR`
for "1", bit 1 of `GPIOA->ODR` for "2", bit 2 of `GPIOA->ODR` for "3". -/
theorem led_toggle_twice (m m1 m2 : LedMachine) (h1 : led_cycle m = some m1)
    (h2 : led_cycle m1 = some m2) :
    (m1.getline_buffer.cell 0 = 49 → m2.getline_buffer.cell 0 = 49 →
      ((m.red = 0 ∨ m.red = 1) → m2.red = m.red) ∧ m2.green = m.green ∧ m2.blue = m.blue ∧
      m2.odr_writes = (GpioPort.C, m2.gpioc_odr) :: (GpioPort.C, m1.gpioc_odr) :: m.odr_writes ∧
      m2.gpioc_odr.testBit 13 = !(m1.gpioc_odr.testBit 13)) ∧
    (m1.getline_buffer.cell 0 = 50 → m2.getline_buffer.cell 0 = 50 →
      m2.red = m.red ∧ ((m.green = 0 ∨ m.green = 1) → m2.green = m.green) ∧ m2.blue = m.blue ∧
      m2.odr_writes = (GpioPort.A, m2.gpioa_odr) :: (GpioPort.A, m1.gpioa_odr) :: m.odr_writes ∧
      m2.gpioa_odr.testBit 1 = !(m1.gpioa_odr.testBit 1)) ∧
    (m1.getline_buffer.cell 0 = 51 → m2.getline_buffer.cell 0 = 51 →
      m2.red = m.red ∧ m2.green = m.green ∧ ((m.blue = 0 ∨ m.blue = 1) → m2.blue = m.blue) ∧
      m2.odr_writes = (GpioPort.A, m2.gpioa_odr) :: (GpioPort.A, m1.gpioa_odr) :: m.odr_writes ∧
      m2.gpioa_odr.testBit 2 = !(m1.gpioa_odr.testBit 2)) := by
  refine ⟨?_, ?_, ?_⟩
  · intro hc1 hc2
    obtain ⟨a1, a2, a3, _, a5, a6⟩ := led_cycle_red_step m m1 h1 hc1
    obtain ⟨b1, b2, b3, _, b5, b6⟩ := led_cycle_red_step m1 m2 h2 hc2
    refine ⟨?_, by rw [b2, a2], by rw [b3, a3], by rw [b5, a5], ?_⟩
    · intro hflag
      rw [b1, a1, lnot_lnot m.red hflag]
    · rw [b6, a6, a1, decide_lnot_ne]
  · intro hc1 hc2
    obtain ⟨a1, a2, a3, _, a5, a6, _⟩ := led_cycle_green_step m m1 h1 hc1
    obtain ⟨b1, b2, b3, _, b5, b6, _⟩ := led_cycle_green_step m1 m2 h2 hc2
    refine ⟨by rw [b1, a1], ?_, by rw [b3, a3], by rw [b5, a5], ?_⟩
    · intro hflag
      rw [b2, a2, lnot_lnot m.green hflag]
    · rw [b6, a6, a2, decide_lnot_ne]
  · intro hc1 hc2
    obtain ⟨a1, a2, a3, _, a5, a6, _⟩ := led_cycle_blue_step m m1 h1 hc1
    obtain ⟨b1, b2, b3, _, b5, b6, _⟩ := led_cycle_blue_step m1 m2 h2 hc2
    refine ⟨by rw [b1, a1], by rw [b2, a2], ?_, by rw [b5, a5], ?_⟩
    · intro hflag
      rw [b3, a3, lnot_lnot m.blue hflag]
    · rw [b6, a6, a3, decide_lnot_ne]

theorem led_cycle_active_low (m m1 : LedMachine) (hinv : LedActiveLow m)
    (h : led_cycle m = some m1) : LedActiveLow m1 := by
  obtain ⟨hr, hg, hb, hc13, ha1, ha2⟩ := hinv
  unfold LedActiveLow
  by_cases h1 : m1.getline_buffer.cell 0 = 49
  · obtain ⟨a1, a2, a3, a4, _, a6⟩ := led_cycle_red_step m m1 h h1
    rw [a1, a2, a3, a4, a6, decide_lnot_eq]
    exact ⟨lnot_flag m.red, hg, hb, rfl, ha1, ha2⟩
  · by_cases h2 : m1.getline_buffer.cell 0 = 50
    · obtain ⟨a1, a2, a3, a4, _, a6, a7⟩ := led_cycle_green_step m m1 h h2
      rw [a1, a2, a3, a4, a6, a7, decide_lnot_eq]
      exact ⟨hr, lnot_flag m.green, hb, hc13, rfl, ha2⟩
    · by_cases h3 : m1.getline_buffer.cell 0 = 51
      · obtain ⟨a1, a2, a3, a4, _, a6, a7⟩ := led_cycle_blue_step m m1 h h3
        rw [a1, a2, a3, a4, a6, a7, decide_lnot_eq]
        exact ⟨hr, hg, lnot_flag m.blue, hc13, ha1, rfl⟩
      · obtain ⟨a1, a2, a3, a4, a5, _⟩ := led_cycle_wrong_step m m1 h h1 h2 h3
        rw [a1, a2, a3, a4, a5]
        exact ⟨hr, hg, hb, hc13, ha1, ha2⟩

theorem led_run_active_low : ∀ (n : Nat) (m0 m : LedMachine), LedActiveLow m0 →
    led_run n m0 = some m → LedActiveLow m := by
  intro n
  induction n with
  | zero =>
    intro m0 m hinv h
    have e : m0 = m := Option.some.inj h
    rw [← e]; exact hinv
  | succ n ih =>
    intro m0 m hinv h
    rw [led_run] at h
    cases hc : led_cycle m0 with
    | none => rw [hc] at h; exact Option.noConfusion h
    | some m1 =>
      rw [hc] at h
      exact ih m1 m (led_cycle_active_low m0 m1 hinv hc) h

theorem ledStart_active_low (m : LedMachine) (h : LedStart m) : LedActiveLow m := by
  obtain ⟨hr, hg, hb, hc, ha1, ha2⟩ := h
  unfold LedActiveLow
  rw [hr, hg, hb, hc, ha1, ha2]
  exact ⟨Or.inl rfl, Or.inl rfl, Or.inl rfl, rfl, rfl, rfl⟩

theorem led_main_start_ledStart (s m0 : LedMachine) (h : led_main_start s = some m0) :
    LedStart m0 := by
  unfold led_main_start at h
  split at h
  · exact Option.noConfusion h
  · have e := Option.some.inj h
    rw [← e]
    refine ⟨rfl, rfl, rfl, ?_, ?_, ?_⟩
    · exact testBit_or_set _ _ _ (by decide)
    · exact testBit_or_set _ _ _ (by decide)
    · exact testBit_or_set _ _ _ (by decide)

/-- C15: `main` enters the toggle loop with the three flags 0 and with bit 13
of `GPIOC->ODR` and bits 1 and 2 of `GPIOA->ODR` set, and in every state
reached from there by any number of cycles on any lines each output bit is the
complement of its flag: bit 13 of `GPIOC->ODR` is set exactly when red is 0,
bit 1 of `GPIOA->ODR` exactly when green is 0, bit 2 exactly when blue is 0. -/
theorem led_active_low (m0 : LedMachine) (n : Nat) (m : LedMachine) (h0 : LedStart m0)
    (hrun : led_run n m0 = some m) :
    LedActiveLow m ∧ (∀ s s1, led_main_start s = some s1 → LedStart s1) :=
  ⟨led_run_active_low n m0 m (ledStart_active_low m0 h0) hrun, led_main_start_ledStart⟩

set_option maxRecDepth 100000 in
theorem led_toggle_twice_witness :
    ∃ m1 m2 : LedMachine, led_cycle
      { uart := { polls := [⟨32, 49⟩, ⟨32, 10⟩] ++ List.replicate 16 ⟨128, 0⟩ ++ ([⟨32, 49⟩, ⟨32, 10⟩] ++ List.replicate 16 ⟨128, 0⟩), sent := [] }
        getline_buffer := Buffer.zeroed
        red := 0
        green := 0
        blue := 0
        gpioa_odr := 6
        gpioc_odr := 8192
        odr_writes := [] } = some m1 ∧
      led_cycle m1 = some m2 ∧ m1.red = 1 ∧ m2.red = 0 ∧
      m2.odr_writes = [(GpioPort.C, 8192), (GpioPort.C, 0)] ∧
      m2.gpioc_odr.testBit 13 = !(m1.gpioc_odr.testBit 13) := by
  have t := (led_toggle_twice
      { uart := { polls := [⟨32, 49⟩, ⟨32, 10⟩] ++ List.replicate 16 ⟨128, 0⟩ ++ ([⟨32, 49⟩, ⟨32, 10⟩] ++ List.replicate 16 ⟨128, 0⟩), sent := [] }
        getline_buffer := Buffer.zeroed
        red := 0
        green := 0
        blue := 0
        gpioa_odr := 6
        gpioc_odr := 8192
        odr_writes := [] }
      { uart := { polls := [⟨32, 49⟩, ⟨32, 10⟩] ++ List.replicate 16 ⟨128, 0⟩, sent := [84, 111, 103, 103, 108, 105, 110, 103, 32, 82, 69, 68, 46, 46, 46, 10] }
        getline_buffer := (((Buffer.zeroed.store 0 49).store 1 10).store 2 0)
        red := 1
        green := 0
        blue := 0
        gpioa_odr := 6
        gpioc_odr := 0
        odr_writes := [(GpioPort.C, 0)] }
      { uart := { polls := [], sent := [84, 111, 103, 103, 108, 105, 110, 103, 32, 82, 69, 68, 46, 46, 46, 10] ++ [84, 111, 103, 103, 108, 105, 110, 103, 32, 82, 69, 68, 46, 46, 46, 10] }
        getline_buffer := ((((((Buffer.zeroed.store 0 49).store 1 10).store 2 0).store 0 49).store 1 10).store 2 0)
        red := 0
        green := 0
        blue := 0
        gpioa_odr := 6
        gpioc_odr := 8192
        odr_writes := [(GpioPort.C, 8192), (GpioPort.C, 0)] }
      rfl rfl).1 rfl rfl
  exact ⟨_, _, rfl, rfl, rfl, t.1 (Or.inl rfl), t.2.2.2.1, t.2.2.2.2⟩

set_option maxRecDepth 100000 in
theorem led_active_low_witness :
    ∃ m : LedMachine, led_run 2
      { uart := { polls := [⟨32, 49⟩, ⟨32, 10⟩] ++ List.replicate 16 ⟨128, 0⟩ ++ ([⟨32, 51⟩, ⟨32, 10⟩] ++ List.replicate 17 ⟨128, 0⟩), sent := [] }
        getline_buffer := Buffer.zeroed
        red := 0
        green := 0
        blue := 0
        gpioa_odr := 6
        gpioc_odr := 8192
        odr_writes := [] } = some m ∧
      LedActiveLow m ∧ m.red = 1 ∧ m.green = 0 ∧ m.blue = 1 ∧ m.gpioa_odr = 2 ∧
      m.gpioc_odr = 0 :=
  ⟨
      { uart := { polls := [], sent := [84, 111, 103, 103, 108, 105, 110, 103, 32, 82, 69, 68, 46, 46, 46, 10] ++ [84, 111, 103, 103, 108, 105, 110, 103, 32, 66, 76, 85, 69, 46, 46, 46, 10] }
        getline_buffer := ((((((Buffer.zeroed.store 0 49).store 1 10).store 2 0).store 0 51).store 1 10).store 2 0)
        red := 1
        green := 0
        blue := 1
        gpioa_odr := 2
        gpioc_odr := 0
        odr_writes := [(GpioPort.A, 2), (GpioPort.C, 0)] },
    rfl,
    (led_active_low
      { uart := { polls := [⟨32, 49⟩, ⟨32, 10⟩] ++ List.replicate 16 ⟨128, 0⟩ ++ ([⟨32, 51⟩, ⟨32, 10⟩] ++ List.replicate 17 ⟨128, 0⟩), sent := [] }
        getline_buffer := Buffer.zeroed
        red := 0
        green := 0
        blue := 0
        gpioa_odr := 6
        gpioc_odr := 8192
        odr_writes := [] }
      2
      { uart := { polls := [], sent := [84, 111, 103, 103, 108, 105, 110, 103, 32, 82, 69, 68, 46, 46, 46, 10] ++ [84, 111, 103, 103, 108, 105, 110, 103, 32, 66, 76, 85, 69, 46, 46, 46, 10] }
        getline_buffer := ((((((Buffer.zeroed.store 0 49).store 1 10).store 2 0).store 0 51).store 1 10).store 2 0)
        red := 1
        green := 0
        blue := 1
        gpioa_odr := 2
        gpioc_odr := 0
        odr_writes := [(GpioPort.A, 2), (GpioPort.C, 0)] }
      (by decide) rfl).1, rfl, rfl, rfl, rfl, rfl⟩

end GD32
